import Mathlib

/-!
Verification of the recipe-management backend (`src/app/recipe/views.py`,
`src/app/recipe/serializers.py`) against its natural-language specification.

The Django ORM state is embedded as an explicit `DB` value: each model row is
a structure, many-to-many relations are stored as id lists on the `Recipe`
side (mirroring the join table rows created by `recipe.tags.add`), and every
endpoint is a function from a `DB` and request data to a response and a new
`DB`.  The `core/models.py` module itself is not under `src/`; where its
behaviour (or behaviour of the Django REST framework machinery) decides a
claim, the corresponding definition is modelled from the spec and says so in
its doc comment.
-/

/-- A row of the Tag model: id, owning user id, name
(spec section 3: Tag = \x7bid, owner-user-id, name\x7d). -/
structure Tag where
  id : Nat
  user : Nat
  name : String
deriving DecidableEq

/-- A row of the Ingredient model: id, owning user id, name. -/
structure Ingredient where
  id : Nat
  user : Nat
  name : String
deriving DecidableEq

/-- A row of the Recipe model.  `tags` and `ingredients` hold the ids of the
related rows, in the order the join rows were inserted by `.add`; `image` is
the stored file reference (none when no image was uploaded). -/
structure Recipe where
  id : Nat
  user : Nat
  title : String
  time_minutes : Nat
  price : Int
  link : String
  description : String
  image : Option String
  tags : List Nat
  ingredients : List Nat
deriving DecidableEq

/-- The persistent state: the three tables plus the auto-increment counters
for server-assigned primary keys. -/
structure DB where
  recipes : List Recipe
  tags : List Tag
  ingredients : List Ingredient
  nextRecipeId : Nat
  nextTagId : Nat
  nextIngredientId : Nat
deriving DecidableEq

/-- Per-(owner, name) uniqueness of tag rows (spec section 3 invariant). -/
def TagsUniq (db : DB) : Prop :=
  ∀ t1 ∈ db.tags, ∀ t2 ∈ db.tags, t1.user = t2.user → t1.name = t2.name → t1 = t2

/-- Per-(owner, name) uniqueness of ingredient rows. -/
def IngsUniq (db : DB) : Prop :=
  ∀ t1 ∈ db.ingredients, ∀ t2 ∈ db.ingredients,
    t1.user = t2.user → t1.name = t2.name → t1 = t2

/-- Well-formedness of a database state: primary keys are unique and below
the auto-increment counters, tag/ingredient rows satisfy the per-(owner,
name) uniqueness invariant, and every relation id on a recipe resolves to a
row owned by the recipe's owner (spec section 3: "A Recipe's tags and
ingredients must each be owned by the same user as the Recipe"). -/
def DB.WF (db : DB) : Prop :=
  (db.recipes.map Recipe.id).Nodup ∧
  (db.tags.map Tag.id).Nodup ∧
  (db.ingredients.map Ingredient.id).Nodup ∧
  (∀ r ∈ db.recipes, r.id < db.nextRecipeId) ∧
  (∀ t ∈ db.tags, t.id < db.nextTagId) ∧
  (∀ i ∈ db.ingredients, i.id < db.nextIngredientId) ∧
  TagsUniq db ∧
  IngsUniq db ∧
  (∀ r ∈ db.recipes, ∀ tid ∈ r.tags, ∃ t ∈ db.tags, t.id = tid ∧ t.user = r.user) ∧
  (∀ r ∈ db.recipes, ∀ iid ∈ r.ingredients,
    ∃ i ∈ db.ingredients, i.id = iid ∧ i.user = r.user)

instance (db : DB) : Decidable (TagsUniq db) :=
  inferInstanceAs (Decidable
    (∀ t1 ∈ db.tags, ∀ t2 ∈ db.tags, t1.user = t2.user → t1.name = t2.name → t1 = t2))

instance (db : DB) : Decidable (IngsUniq db) :=
  inferInstanceAs (Decidable
    (∀ t1 ∈ db.ingredients, ∀ t2 ∈ db.ingredients,
      t1.user = t2.user → t1.name = t2.name → t1 = t2))

instance (db : DB) : Decidable db.WF :=
  inferInstanceAs (Decidable
    ((db.recipes.map Recipe.id).Nodup ∧
     (db.tags.map Tag.id).Nodup ∧
     (db.ingredients.map Ingredient.id).Nodup ∧
     (∀ r ∈ db.recipes, r.id < db.nextRecipeId) ∧
     (∀ t ∈ db.tags, t.id < db.nextTagId) ∧
     (∀ i ∈ db.ingredients, i.id < db.nextIngredientId) ∧
     TagsUniq db ∧
     IngsUniq db ∧
     (∀ r ∈ db.recipes, ∀ tid ∈ r.tags, ∃ t ∈ db.tags, t.id = tid ∧ t.user = r.user) ∧
     (∀ r ∈ db.recipes, ∀ iid ∈ r.ingredients,
       ∃ i ∈ db.ingredients, i.id = iid ∧ i.user = r.user)))

instance {ε α : Type} [DecidableEq ε] [DecidableEq α] : DecidableEq (Except ε α) :=
  fun a b =>
    match a, b with
    | .ok x, .ok y =>
      if h : x = y then isTrue (by rw [h]) else isFalse (fun hh => by cases hh; exact h rfl)
    | .error x, .error y =>
      if h : x = y then isTrue (by rw [h]) else isFalse (fun hh => by cases hh; exact h rfl)
    | .ok _, .error _ => isFalse (fun hh => by cases hh)
    | .error _, .ok _ => isFalse (fun hh => by cases hh)

/-- Strip leading and trailing whitespace from a character list. -/
def trimChars (cs : List Char) : List Char :=
  ((cs.dropWhile Char.isWhitespace).reverse.dropWhile Char.isWhitespace).reverse

/-- Python `int` on a decimal string literal, over the string's characters:
surrounding whitespace and a single leading sign (code points 43 `+` and 45
`-`) are accepted, anything other than a nonempty digit run then raises
`ValueError` (modelled as `Except.error`). -/
def pyIntChars (cs : List Char) : Except Unit Int :=
  let t := trimChars cs
  let p : Int × List Char :=
    match t with
    | c :: rest =>
      if c.toNat == 45 then (-1, rest)
      else if c.toNat == 43 then (1, rest)
      else (1, t)
    | [] => (1, [])
  if p.2.length > 0 && p.2.all Char.isDigit then
    .ok (p.1 * (p.2.foldl (fun acc c => acc * 10 + (c.toNat - 48)) 0 : Nat))
  else
    .error ()

/-- Python `int(s)`. -/
def pyInt (s : String) : Except Unit Int :=
  pyIntChars s.data

/-- Python `str.split` on the comma character (code point 44): splitting the
empty string yields one empty piece. -/
def splitCommas (cs : List Char) : List (List Char) :=
  match cs with
  | [] => [[]]
  | c :: rest =>
    let r := splitCommas rest
    if c.toNat == 44 then [] :: r
    else
      match r with
      | [] => [[c]]
      | h :: t => (c :: h) :: t

/-- Embeds `RecipeViewSet._params_to_inits` (views.py lines 41-44): split the
query string on commas and convert each piece with `int`; a piece that is not
an integer literal raises, and the exception propagates (there is no handler
in the view). -/
def paramsToInits (qs : String) : Except Unit (List Int) :=
  (splitCommas qs.data).mapM pyIntChars

/-- Descending-id comparison used by `.order_by(-id)` on recipes. -/
def recGE (a b : Recipe) : Prop := b.id ≤ a.id

instance : DecidableRel recGE := fun a b => Nat.decLe b.id a.id

instance : IsTotal Recipe recGE := ⟨fun a b => Nat.le_total b.id a.id⟩

instance : IsTrans Recipe recGE := ⟨fun _ _ _ h1 h2 => Nat.le_trans h2 h1⟩

/-- Lexicographic less-or-equal on character lists, by code point. -/
def charListLeB : List Char → List Char → Bool
  | [], _ => true
  | _ :: _, [] => false
  | a :: as, b :: bs =>
    if a.toNat < b.toNat then true
    else if b.toNat < a.toNat then false
    else charListLeB as bs

/-- Totality of the lexicographic comparison. -/
def charListLeB_total : ∀ as bs, charListLeB as bs = true ∨ charListLeB bs as = true
  | [], _ => Or.inl rfl
  | _ :: _, [] => Or.inr rfl
  | a :: as, b :: bs => by
    by_cases h1 : a.toNat < b.toNat
    · exact Or.inl (by simp [charListLeB, h1])
    · by_cases h2 : b.toNat < a.toNat
      · exact Or.inr (by simp [charListLeB, h2, h1])
      · rcases charListLeB_total as bs with h | h
        · exact Or.inl (by simp [charListLeB, h1, h2, h])
        · exact Or.inr (by simp [charListLeB, h1, h2, h])

/-- Transitivity of the lexicographic comparison. -/
def charListLeB_trans :
    ∀ as bs cs, charListLeB as bs = true → charListLeB bs cs = true →
      charListLeB as cs = true
  | [], _, _ => by intro _ _; rfl
  | a :: as, [], cs => by intro h _; simp [charListLeB] at h
  | a :: as, b :: bs, [] => by intro _ h; simp [charListLeB] at h
  | a :: as, b :: bs, c :: cs => by
    intro h1 h2
    simp only [charListLeB] at h1 h2 ⊢
    split at h1
    · rename_i hab
      split at h2
      · rename_i hbc
        simp [Nat.lt_trans hab hbc]
      · split at h2
        · exact absurd h2 (by simp)
        · rename_i hcb hbc
          have hbc' : b.toNat = c.toNat := Nat.le_antisymm (Nat.le_of_not_lt hbc) (Nat.le_of_not_lt hcb)
          simp [hbc' ▸ hab]
    · split at h1
      · exact absurd h1 (by simp)
      · rename_i hba hab
        have hab' : a.toNat = b.toNat := Nat.le_antisymm (Nat.le_of_not_lt hab) (Nat.le_of_not_lt hba)
        split at h2
        · rename_i hbc
          simp [hab' ▸ hbc]
        · split at h2
          · exact absurd h2 (by simp)
          · rename_i hcb hbc
            have hbc' : b.toNat = c.toNat :=
              Nat.le_antisymm (Nat.le_of_not_lt hbc) (Nat.le_of_not_lt hcb)
            have hac : ¬ a.toNat < c.toNat := by omega
            have hca : ¬ c.toNat < a.toNat := by omega
            simp only [hac, hca, if_false]
            exact charListLeB_trans as bs cs h1 h2

/-- Lexicographic less-or-equal on strings, by code point (the order the
database's ORDER BY uses for name columns in this model). -/
def strLeB (a b : String) : Bool := charListLeB a.data b.data

/-- Descending-name comparison used by `.order_by(-name)` on tags. -/
def tagGE (a b : Tag) : Prop := strLeB b.name a.name = true

instance : DecidableRel tagGE :=
  fun a b => inferInstanceAs (Decidable (strLeB b.name a.name = true))

instance : IsTotal Tag tagGE :=
  ⟨fun a b => (charListLeB_total b.name.data a.name.data).imp (fun h => h) (fun h => h)⟩

instance : IsTrans Tag tagGE :=
  ⟨fun _ _ _ h1 h2 => charListLeB_trans _ _ _ h2 h1⟩

/-- Descending-name comparison used by `.order_by(-name)` on ingredients. -/
def ingGE (a b : Ingredient) : Prop := strLeB b.name a.name = true

instance : DecidableRel ingGE :=
  fun a b => inferInstanceAs (Decidable (strLeB b.name a.name = true))

instance : IsTotal Ingredient ingGE :=
  ⟨fun a b => (charListLeB_total b.name.data a.name.data).imp (fun h => h) (fun h => h)⟩

instance : IsTrans Ingredient ingGE :=
  ⟨fun _ _ _ h1 h2 => charListLeB_trans _ _ _ h2 h1⟩

/-- SQL semantics of `queryset.filter(tags__id__in=ids)`: the recipe table is
joined with the recipe-tag join table, producing one output row per matching
join row (duplicates are only removed by the final `.distinct()`). -/
def qsFilterTagsIn (rows : List Recipe) (ids : List Int) : List Recipe :=
  rows.flatMap (fun r => (r.tags.filter (fun tid : Nat => (tid : Int) ∈ ids)).map (fun _ => r))

/-- SQL semantics of `queryset.filter(ingredients__id__in=ids)`. -/
def qsFilterIngsIn (rows : List Recipe) (ids : List Int) : List Recipe :=
  rows.flatMap
    (fun r => (r.ingredients.filter (fun iid : Nat => (iid : Int) ∈ ids)).map (fun _ => r))

/-- Embeds `RecipeViewSet.get_queryset` (views.py lines 46-68) after query
parameter parsing: optionally join-filter by tag ids and ingredient ids,
restrict to the requesting user, order by descending id, and deduplicate
(`.distinct()`). -/
def recipeListQS (db : DB) (u : Nat) (tagIds ingIds : Option (List Int)) : List Recipe :=
  let qs := db.recipes
  let qs := match tagIds with
    | none => qs
    | some l => qsFilterTagsIn qs l
  let qs := match ingIds with
    | none => qs
    | some l => qsFilterIngsIn qs l
  (((qs.filter (fun r => r.user == u)).insertionSort recGE).dedup)

/-- SQL semantics of `queryset.filter(recipe__isnull=False)` on tags: inner
join with the recipe relation, one row per related recipe. -/
def qsTagsAssigned (db : DB) (rows : List Tag) : List Tag :=
  rows.flatMap (fun t => (db.recipes.filter (fun r => t.id ∈ r.tags)).map (fun _ => t))

/-- SQL semantics of `queryset.filter(recipe__isnull=False)` on ingredients. -/
def qsIngsAssigned (db : DB) (rows : List Ingredient) : List Ingredient :=
  rows.flatMap
    (fun i => (db.recipes.filter (fun r => i.id ∈ r.ingredients)).map (fun _ => i))

/-- Embeds `BaseRecipeAttrViewSet.get_queryset` (views.py lines 127-137) for
the tag table, after the `assigned_only` parameter has been parsed: optionally
join-filter to rows with at least one recipe relation, restrict to the
requesting user, order by descending name, deduplicate. -/
def tagListQS (db : DB) (u : Nat) (assignedOnly : Bool) : List Tag :=
  let qs := db.tags
  let qs := if assignedOnly then qsTagsAssigned db qs else qs
  ((qs.filter (fun t => t.user == u)).insertionSort tagGE).dedup

/-- Embeds `BaseRecipeAttrViewSet.get_queryset` for the ingredient table. -/
def ingListQS (db : DB) (u : Nat) (assignedOnly : Bool) : List Ingredient :=
  let qs := db.ingredients
  let qs := if assignedOnly then qsIngsAssigned db qs else qs
  ((qs.filter (fun i => i.user == u)).insertionSort ingGE).dedup

/-- Find a recipe row by primary key. -/
def findRecipe (db : DB) (rid : Nat) : Option Recipe :=
  db.recipes.find? (fun r => r.id == rid)

/-- Replace the recipe with primary key `rid` by `f` of itself (the effect of
mutating the fetched model object and saving it, or of a relation `.add` /
`.clear` keyed by the recipe's pk). -/
def dbMapRecipe (db : DB) (rid : Nat) (f : Recipe → Recipe) : DB :=
  { db with recipes := db.recipes.map (fun r => if r.id == rid then f r else r) }

/-- Django many-to-many `add`: inserting an already-present relation is a
no-op; a new relation row is appended. -/
def m2mAdd (rel : List Nat) (x : Nat) : List Nat :=
  if x ∈ rel then rel else rel ++ [x]

/-- Embeds `Tag.objects.get_or_create(user=auth_user, name=name)` as used in
`RecipeSerializer._get_or_create_tags` (serializers.py lines 48-56): return
the first row matching (user, name), or insert a fresh row with the next
server-assigned id.  The Tag model itself is not under `src/`; modelled from
the spec (section 3): rows are \x7bid, owner-user-id, name\x7d with a
server-assigned id. -/
def getOrCreateTag (db : DB) (u : Nat) (n : String) : DB × Nat :=
  match db.tags.find? (fun t => t.user == u && t.name == n) with
  | some t => (db, t.id)
  | none =>
    ({ db with
        tags := db.tags ++ [⟨db.nextTagId, u, n⟩],
        nextTagId := db.nextTagId + 1 },
      db.nextTagId)

/-- Embeds `Ingredient.objects.get_or_create(user=auth_user, name=name)` as
used in `RecipeSerializer._get_or_create_ingredients` (serializers.py lines
58-66).  The Ingredient model itself is not under `src/`; modelled from the
spec (section 3). -/
def getOrCreateIng (db : DB) (u : Nat) (n : String) : DB × Nat :=
  match db.ingredients.find? (fun i => i.user == u && i.name == n) with
  | some i => (db, i.id)
  | none =>
    ({ db with
        ingredients := db.ingredients ++ [⟨db.nextIngredientId, u, n⟩],
        nextIngredientId := db.nextIngredientId + 1 },
      db.nextIngredientId)

/-- `recipe.tags.add(tag_obj)` for the recipe with pk `rid`. -/
def attachTag (db : DB) (rid tid : Nat) : DB :=
  dbMapRecipe db rid (fun r => { r with tags := m2mAdd r.tags tid })

/-- `recipe.ingredients.add(ingredient_obj)` for the recipe with pk `rid`. -/
def attachIng (db : DB) (rid iid : Nat) : DB :=
  dbMapRecipe db rid (fun r => { r with ingredients := m2mAdd r.ingredients iid })

/-- Embeds `RecipeSerializer._get_or_create_tags` (serializers.py lines
48-56): for each payload entry (a validated dict holding only `name`),
get-or-create the tag for the authenticated user and add it to the recipe's
relation set, in payload order. -/
def getOrCreateTags (db : DB) (u : Nat) (ns : List String) (rid : Nat) : DB :=
  ns.foldl (fun db n =>
    let p := getOrCreateTag db u n
    attachTag p.1 rid p.2) db

/-- Embeds `RecipeSerializer._get_or_create_ingredients` (serializers.py
lines 58-66). -/
def getOrCreateIngs (db : DB) (u : Nat) (ns : List String) (rid : Nat) : DB :=
  ns.foldl (fun db n =>
    let p := getOrCreateIng db u n
    attachIng p.1 rid p.2) db

/-- A validated recipe-create payload: the writable scalar fields of
`RecipeDetailSerializer` plus the optional nested `tags` / `ingredients`
sequences, each entry carrying only a `name` (the nested serializers mark
`id` read-only). -/
structure RecipeCreatePayload where
  title : String
  time_minutes : Nat
  price : Int
  link : String
  description : String
  tags : Option (List String)
  ingredients : Option (List String)
deriving DecidableEq

/-- Embeds `RecipeSerializer.create` (serializers.py lines 68-75) combined
with `RecipeViewSet.perform_create` (views.py lines 79-81): pop the nested
sequences (defaulting to empty), insert the recipe row owned by the
requesting user, then run the get-or-create-and-attach loops.  Returns the
new state and the new recipe's id. -/
def recipeCreate (db : DB) (u : Nat) (p : RecipeCreatePayload) : DB × Nat :=
  let rid := db.nextRecipeId
  let r : Recipe :=
    { id := rid, user := u, title := p.title, time_minutes := p.time_minutes,
      price := p.price, link := p.link, description := p.description,
      image := none, tags := [], ingredients := [] }
  let db1 : DB := { db with recipes := db.recipes ++ [r], nextRecipeId := rid + 1 }
  let db2 := getOrCreateTags db1 u (p.tags.getD []) rid
  let db3 := getOrCreateIngs db2 u (p.ingredients.getD []) rid
  (db3, rid)

/-- A validated recipe-update payload: every scalar field optional (present
keys only), and the nested sequences distinguishing absent (`none`) from
present-but-empty (`some []`). -/
structure RecipeUpdatePayload where
  title : Option String
  time_minutes : Option Nat
  price : Option Int
  link : Option String
  description : Option String
  tags : Option (List String)
  ingredients : Option (List String)
deriving DecidableEq

/-- The `setattr` loop of `RecipeSerializer.update` (serializers.py lines
90-93) over the remaining validated scalar fields, followed by `save`. -/
def applyScalars (p : RecipeUpdatePayload) (r : Recipe) : Recipe :=
  { r with
      title := p.title.getD r.title,
      time_minutes := p.time_minutes.getD r.time_minutes,
      price := p.price.getD r.price,
      link := p.link.getD r.link,
      description := p.description.getD r.description }

/-- `instance.tags.clear()` for the recipe with pk `rid`. -/
def dbClearTags (db : DB) (rid : Nat) : DB :=
  dbMapRecipe db rid (fun r => { r with tags := [] })

/-- `instance.ingredients.clear()` for the recipe with pk `rid`. -/
def dbClearIngs (db : DB) (rid : Nat) : DB :=
  dbMapRecipe db rid (fun r => { r with ingredients := [] })

/-- Embeds `RecipeSerializer.update` (serializers.py lines 77-94): if the
`tags` key is present (possibly an empty list) clear the relation set and
re-run get-or-create-and-attach; same, independently, for `ingredients`;
then apply the remaining scalar fields and save. -/
def recipeUpdateApply (db : DB) (u rid : Nat) (p : RecipeUpdatePayload) : DB :=
  let db1 := match p.tags with
    | none => db
    | some ns => getOrCreateTags (dbClearTags db rid) u ns rid
  let db2 := match p.ingredients with
    | none => db1
    | some ns => getOrCreateIngs (dbClearIngs db1 rid) u ns rid
  dbMapRecipe db2 rid (applyScalars p)

/-- HTTP status outcomes of the endpoints (spec section 6). -/
inductive Http where
  | ok
  | created
  | noContent
  | badRequest
  | forbidden
  | notFound
deriving DecidableEq

/-- Modelled from the spec: the framework resolves a detail route by looking
the pk up inside `get_queryset()` and answers 404 when it is absent
("authorization/ownership mismatches → 404, not 403").  For recipes the
queryset is `RecipeViewSet.get_queryset` with no filter parameters. -/
def recipeGetObject (db : DB) (u : Nat) (pk : Nat) : Option Recipe :=
  (recipeListQS db u none none).find? (fun r => r.id == pk)

/-- The recipe retrieve endpoint: 200 with the row, or 404. -/
def recipeRetrieve (db : DB) (u : Nat) (pk : Nat) : Http × Option Recipe :=
  match recipeGetObject db u pk with
  | none => (.notFound, none)
  | some r => (.ok, some r)

/-- The recipe update endpoint (PUT/PATCH): resolve the object through the
user-scoped queryset, 404 when absent, otherwise run
`RecipeSerializer.update`. -/
def recipeUpdate (db : DB) (u rid : Nat) (p : RecipeUpdatePayload) : Http × DB :=
  match recipeGetObject db u rid with
  | none => (.notFound, db)
  | some _ => (.ok, recipeUpdateApply db u rid p)

/-- The recipe delete endpoint: 404 through the user-scoped queryset,
otherwise the row (with its relation rows) is removed, 204. -/
def recipeDestroy (db : DB) (u rid : Nat) : Http × DB :=
  match recipeGetObject db u rid with
  | none => (.notFound, db)
  | some _ =>
    (.noContent, { db with recipes := db.recipes.filter (fun r => r.id != rid) })

/-- An uploaded file as the image endpoint sees it.  Whether the payload is a
decodable image is modelled from the spec ("Validates the payload is a
decodable image") as an attribute of the file, since the actual check lives
in the framework's `ImageField`, not under `src/`. -/
structure UploadedFile where
  content : String
  decodable : Bool
deriving DecidableEq

/-- Embeds `RecipeViewSet.upload_image` (views.py lines 83-102): resolve the
recipe through the user-scoped queryset; `RecipeImageSerializer` marks the
image field required, so a missing or non-decodable file fails validation
and the view answers 400 with no state change; a valid file is stored and
its reference replaces the recipe's previous image. -/
def uploadImage (db : DB) (u pk : Nat) (file : Option UploadedFile) : Http × DB :=
  match recipeGetObject db u pk with
  | none => (.notFound, db)
  | some _ =>
    match file with
    | none => (.badRequest, db)
    | some f =>
      if f.decodable then
        (.ok, dbMapRecipe db pk (fun r => { r with image := some f.content }))
      else
        (.badRequest, db)

/-- Modelled from the spec: detail-route resolution for tags, through
`BaseRecipeAttrViewSet.get_queryset` with the default `assigned_only = 0`. -/
def tagGetObject (db : DB) (u : Nat) (pk : Nat) : Option Tag :=
  (tagListQS db u false).find? (fun t => t.id == pk)

/-- Modelled from the spec: detail-route resolution for ingredients. -/
def ingGetObject (db : DB) (u : Nat) (pk : Nat) : Option Ingredient :=
  (ingListQS db u false).find? (fun i => i.id == pk)

/-- The tag update endpoint (`TagViewSet` with `mixins.UpdateModelMixin` and
`TagSerializer`, whose single writable field is `name`): resolve through the
user-scoped queryset, then set the name and save.  The Tag model is not
under `src/`; modelled from the spec, which enforces per-(owner, name)
uniqueness only through get-or-create, so the save performs no uniqueness
check. -/
def tagUpdate (db : DB) (u tid : Nat) (newName : String) : Http × DB :=
  match tagGetObject db u tid with
  | none => (.notFound, db)
  | some _ =>
    (.ok, { db with
      tags := db.tags.map (fun t => if t.id == tid then { t with name := newName } else t) })

/-- The ingredient update endpoint, analogously. -/
def ingUpdate (db : DB) (u iid : Nat) (newName : String) : Http × DB :=
  match ingGetObject db u iid with
  | none => (.notFound, db)
  | some _ =>
    (.ok, { db with
      ingredients :=
        db.ingredients.map (fun i => if i.id == iid then { i with name := newName } else i) })

/-- The tag delete endpoint: 404 through the user-scoped queryset, otherwise
the row and its relation rows are removed, 204. -/
def tagDestroy (db : DB) (u tid : Nat) : Http × DB :=
  match tagGetObject db u tid with
  | none => (.notFound, db)
  | some _ =>
    (.noContent, { db with
      tags := db.tags.filter (fun t => t.id != tid),
      recipes := db.recipes.map (fun r => { r with tags := r.tags.filter (fun x => x != tid) }) })

/-- The ingredient delete endpoint. -/
def ingDestroy (db : DB) (u iid : Nat) : Http × DB :=
  match ingGetObject db u iid with
  | none => (.notFound, db)
  | some _ =>
    (.noContent, { db with
      ingredients := db.ingredients.filter (fun i => i.id != iid),
      recipes := db.recipes.map
        (fun r => { r with ingredients := r.ingredients.filter (fun x => x != iid) }) })

/-- Outcome of a list endpoint: a 200 body, a 400 validation response, or an
exception that escapes the view (Django then produces a server error). -/
inductive ListResp (α : Type) where
  | ok (body : List α)
  | badRequest
  | raised
deriving DecidableEq

/-- Parsing of an optional `tags` / `ingredients` query parameter as the view
does it: an absent or empty value is falsy and applies no filter
(views.py lines 57, 62: `if tags:`), otherwise `_params_to_inits` runs and
any `ValueError` escapes. -/
def parseIdsParam (p : Option String) : Except Unit (Option (List Int)) :=
  match p with
  | none => .ok none
  | some s => if s = "" then .ok none else (paramsToInits s).map some

/-- The recipe list endpoint including query-parameter handling
(views.py lines 46-68). -/
def recipeListResp (db : DB) (u : Nat) (tp ip : Option String) : ListResp Recipe :=
  match parseIdsParam tp, parseIdsParam ip with
  | .ok t, .ok i => .ok (recipeListQS db u t i)
  | _, _ => .raised

/-- `assigned_only` handling of `BaseRecipeAttrViewSet.get_queryset`
(views.py lines 129-131): `bool(int(request.query_params.get(assigned_only,
0)))` — an absent parameter defaults to 0, a present one is parsed by `int`
(a `ValueError` escapes) and any nonzero integer counts as true. -/
def parseAssignedOnly (p : Option String) : Except Unit Bool :=
  match p with
  | none => .ok false
  | some s => (pyInt s).map (fun n => n != 0)

/-- The tag list endpoint including query-parameter handling. -/
def tagListResp (db : DB) (u : Nat) (ap : Option String) : ListResp Tag :=
  match parseAssignedOnly ap with
  | .ok b => .ok (tagListQS db u b)
  | .error _ => .raised

/-- The ingredient list endpoint including query-parameter handling. -/
def ingListResp (db : DB) (u : Nat) (ap : Option String) : ListResp Ingredient :=
  match parseAssignedOnly ap with
  | .ok b => .ok (ingListQS db u b)
  | .error _ => .raised

/-- A raw (pre-validation) update payload: everything a client may put in the
JSON body, including attempts to set `id` or `user`. -/
structure RawUpdatePayload where
  id : Option Nat
  user : Option Nat
  title : Option String
  time_minutes : Option Nat
  price : Option Int
  link : Option String
  description : Option String
  tags : Option (List String)
  ingredients : Option (List String)
deriving DecidableEq

/-- Modelled from the spec: `ModelSerializer` validation keeps only the keys
listed in `Meta.fields` and drops read-only ones, silently.
`RecipeSerializer.Meta` (serializers.py lines 34-46) lists `id` as read-only
and does not list `user` at all, so both are discarded from `validated_data`
without an error ("must be silently ignored, not erroured"). -/
def validateUpdatePayload (p : RawUpdatePayload) : RecipeUpdatePayload :=
  { title := p.title, time_minutes := p.time_minutes, price := p.price,
    link := p.link, description := p.description,
    tags := p.tags, ingredients := p.ingredients }

/-- The recipe update endpoint fed with a raw client payload. -/
def recipeUpdateRaw (db : DB) (u rid : Nat) (p : RawUpdatePayload) : Http × DB :=
  recipeUpdate db u rid (validateUpdatePayload p)

/-- `RecipeSerializer.Meta.fields` (serializers.py lines 37-45). -/
def recipeSerializerFields : List String :=
  ["id", "title", "time_minutes", "price", "link", "tags", "ingredients"]

/-- `RecipeDetailSerializer.Meta.fields` (serializers.py line 102):
the summary fields plus `description`. -/
def recipeDetailSerializerFields : List String :=
  recipeSerializerFields ++ ["description"]

/-- `RecipeImageSerializer.Meta.fields` (serializers.py line 124). -/
def recipeImageSerializerFields : List String :=
  ["id", "image"]

/-- The actions `RecipeViewSet` dispatches on (the two update HTTP verbs
reach the same serializer and update path). -/
inductive ViewAction where
  | list
  | retrieve
  | create
  | update
  | destroy
  | uploadImage
deriving DecidableEq

/-- Embeds `RecipeViewSet.get_serializer_class` (views.py lines 70-77),
projected to the field list each serializer renders: the summary serializer
for `list`, the image serializer for `upload_image`, and the default
`RecipeDetailSerializer` for everything else. -/
def serializerFieldsFor (a : ViewAction) : List String :=
  match a with
  | .list => recipeSerializerFields
  | .uploadImage => recipeImageSerializerFields
  | _ => recipeDetailSerializerFields

/-- A rendered JSON value of a recipe representation. -/
inductive JsonVal where
  | s (v : String)
  | n (v : Nat)
  | i (v : Int)
  | idList (v : List Nat)
  | img (v : Option String)
  | null
deriving DecidableEq

/-- How one serializer field of a recipe is rendered. -/
def renderField (r : Recipe) (f : String) : JsonVal :=
  if f = "id" then .n r.id
  else if f = "title" then .s r.title
  else if f = "time_minutes" then .n r.time_minutes
  else if f = "price" then .i r.price
  else if f = "link" then .s r.link
  else if f = "description" then .s r.description
  else if f = "tags" then .idList r.tags
  else if f = "ingredients" then .idList r.ingredients
  else if f = "image" then .img r.image
  else .null

/-- The representation of a recipe under a given action's serializer: one
key/value pair per declared field. -/
def renderRecipe (a : ViewAction) (r : Recipe) : List (String × JsonVal) :=
  (serializerFieldsFor a).map (fun f => (f, renderField r f))

/-- The name of the tag row with primary key `tid`, when it exists. -/
def tagNameOf (db : DB) (tid : Nat) : Option String :=
  (db.tags.find? (fun t => t.id == tid)).map Tag.name

/-- The name of the ingredient row with primary key `iid`, when it exists. -/
def ingNameOf (db : DB) (iid : Nat) : Option String :=
  (db.ingredients.find? (fun i => i.id == iid)).map Ingredient.name

/-- The tag relation ids of the recipe with primary key `rid` (empty when the
recipe does not exist). -/
def recipeTagIds (db : DB) (rid : Nat) : List Nat :=
  match findRecipe db rid with
  | some r => r.tags
  | none => []

/-- The ingredient relation ids of the recipe with primary key `rid`. -/
def recipeIngIds (db : DB) (rid : Nat) : List Nat :=
  match findRecipe db rid with
  | some r => r.ingredients
  | none => []

/-- The names of the tags related to the recipe with primary key `rid`, in
relation order. -/
def recipeTagNames (db : DB) (rid : Nat) : List String :=
  (recipeTagIds db rid).filterMap (tagNameOf db)

/-- The names of the ingredients related to the recipe with primary key
`rid`, in relation order. -/
def recipeIngNames (db : DB) (rid : Nat) : List String :=
  (recipeIngIds db rid).filterMap (ingNameOf db)

/-- Fold a name sequence into an accumulator keeping only first occurrences
(the order in which an initially related set grows under idempotent `add`). -/
def dedupAcc (acc : List String) (ns : List String) : List String :=
  ns.foldl (fun acc n => if n ∈ acc then acc else acc ++ [n]) acc

/-- The first-occurrence deduplication of a name sequence: the relation names
produced by running get-or-create-and-attach on `ns` from an empty relation
set. -/
def dedupFirst (ns : List String) : List String := dedupAcc [] ns

/-- Invariant threaded through the tag get-or-create-and-attach loop: tag
primary keys are unique and below the counter, the per-(owner, name)
uniqueness invariant holds, and the target recipe exists, is owned by the
acting user, and references only tag rows of that user. -/
def TagInv (db : DB) (u rid : Nat) : Prop :=
  (db.tags.map Tag.id).Nodup ∧
  (∀ t ∈ db.tags, t.id < db.nextTagId) ∧
  TagsUniq db ∧
  (∃ r0, findRecipe db rid = some r0 ∧ r0.user = u ∧
    ∀ tid ∈ r0.tags, ∃ t ∈ db.tags, t.id = tid ∧ t.user = u)

/-- Invariant threaded through the ingredient loop. -/
def IngInv (db : DB) (u rid : Nat) : Prop :=
  (db.ingredients.map Ingredient.id).Nodup ∧
  (∀ i ∈ db.ingredients, i.id < db.nextIngredientId) ∧
  IngsUniq db ∧
  (∃ r0, findRecipe db rid = some r0 ∧ r0.user = u ∧
    ∀ iid ∈ r0.ingredients, ∃ i ∈ db.ingredients, i.id = iid ∧ i.user = u)

/-- Everything of a recipe except its tag relation set. -/
def recipeSansTags (r : Recipe) :
    Nat × Nat × String × Nat × Int × String × String × Option String × List Nat :=
  (r.id, r.user, r.title, r.time_minutes, r.price, r.link, r.description, r.image,
    r.ingredients)

/-- Everything of a recipe except its ingredient relation set. -/
def recipeSansIngs (r : Recipe) :
    Nat × Nat × String × Nat × Int × String × String × Option String × List Nat :=
  (r.id, r.user, r.title, r.time_minutes, r.price, r.link, r.description, r.image,
    r.tags)

/-- The server-controlled identity of a recipe row. -/
def idUser (r : Recipe) : Nat × Nat := (r.id, r.user)

/-- Overwrite the tag relation set of the recipe with pk `rid`. -/
def updTags (rid : Nat) (nt : List Nat) (r : Recipe) : Recipe :=
  if r.id == rid then { r with tags := nt } else r

/-- Overwrite the ingredient relation set of the recipe with pk `rid`. -/
def updIngs (rid : Nat) (ni : List Nat) (r : Recipe) : Recipe :=
  if r.id == rid then { r with ingredients := ni } else r

/-- The empty database. -/
def emptyDB : DB :=
  { recipes := [], tags := [], ingredients := [],
    nextRecipeId := 1, nextTagId := 1, nextIngredientId := 1 }

/-- A small two-user state used to instantiate theorems with hypotheses:
user 1 owns recipes 1 and 2, tags 1-2 and ingredient 1; user 2 owns recipe
3, tag 3 and ingredient 2. -/
def sampleDB : DB :=
  { recipes :=
      [ { id := 1, user := 1, title := "Curry", time_minutes := 30, price := 5,
          link := "", description := "", image := none, tags := [1], ingredients := [1] },
        { id := 2, user := 1, title := "Cake", time_minutes := 10, price := 3,
          link := "", description := "", image := none, tags := [1, 2], ingredients := [] },
        { id := 3, user := 2, title := "Pie", time_minutes := 20, price := 4,
          link := "", description := "", image := none, tags := [3], ingredients := [2] } ],
    tags := [⟨1, 1, "Vegan"⟩, ⟨2, 1, "Dessert"⟩, ⟨3, 2, "Vegan"⟩],
    ingredients := [⟨1, 1, "Salt"⟩, ⟨2, 2, "Lemon"⟩],
    nextRecipeId := 4, nextTagId := 4, nextIngredientId := 3 }

/-- The create payload of the duplicate-uniqueness scenario: a recipe naming
two fresh tags A and B. -/
def payloadAB : RecipeCreatePayload :=
  { title := "R", time_minutes := 5, price := 3, link := "", description := "",
    tags := some ["A", "B"], ingredients := none }

/-- The tag-table part of well-formedness: unique pks below the counter plus
the per-(owner, name) uniqueness invariant. -/
def TagTbl (db : DB) : Prop :=
  (db.tags.map Tag.id).Nodup ∧ (∀ t ∈ db.tags, t.id < db.nextTagId) ∧ TagsUniq db

/-- The ingredient-table part of well-formedness. -/
def IngTbl (db : DB) : Prop :=
  (db.ingredients.map Ingredient.id).Nodup ∧
  (∀ i ∈ db.ingredients, i.id < db.nextIngredientId) ∧ IngsUniq db

/-- The stored image reference of the recipe with pk `rid`. -/
def recipeImage (db : DB) (rid : Nat) : Option String :=
  match findRecipe db rid with
  | some r => r.image
  | none => none

theorem find?_map_of_pred {α : Type} (p : α → Bool) (g : α → α)
    (hg : ∀ x, p (g x) = p x) (l : List α) :
    (l.map g).find? p = (l.find? p).map g := by
  induction l with
  | nil => rfl
  | cons x l ih =>
    simp only [List.map_cons, List.find?_cons, hg]
    cases hp : p x
    · exact ih
    · rfl

theorem find?_append_of_isSome {α : Type} {p : α → Bool} {l1 : List α} (l2 : List α)
    (h : (l1.find? p).isSome) : (l1 ++ l2).find? p = l1.find? p := by
  rw [List.find?_append]
  cases hf : l1.find? p
  · rw [hf] at h; cases h
  · rfl

theorem length_filterMap_of_isSome {α β : Type} {f : α → Option β} (l : List α)
    (h : ∀ x ∈ l, (f x).isSome) : (l.filterMap f).length = l.length := by
  induction l with
  | nil => rfl
  | cons x l ih =>
    have hx := h x (List.mem_cons_self x l)
    cases hf : f x
    · rw [hf] at hx; cases hx
    · simp only [List.filterMap_cons, hf, List.length_cons]
      rw [ih (fun y hy => h y (List.mem_cons_of_mem x hy))]

theorem find?_key_of_mem {α : Type} (key : α → Nat) (l : List α) (t : α)
    (hnd : (l.map key).Nodup) (ht : t ∈ l) :
    l.find? (fun x => key x == key t) = some t := by
  induction l with
  | nil => cases ht
  | cons x l ih =>
    rcases List.mem_cons.mp ht with rfl | ht'
    · simp [List.find?_cons]
    · have hnd' := hnd
      simp only [List.map_cons, List.nodup_cons] at hnd'
      have hx : (key x == key t) = false := by
        apply beq_eq_false_iff_ne.mpr
        intro he
        exact hnd'.1 (he ▸ List.mem_map_of_mem key ht')
      simp only [List.find?_cons, hx]
      exact ih hnd'.2 ht'

theorem mem_qsFilterTagsIn {rows : List Recipe} {ids : List Int} {r : Recipe} :
    r ∈ qsFilterTagsIn rows ids ↔
      r ∈ rows ∧ ∃ tid : Nat, tid ∈ r.tags ∧ (tid : Int) ∈ ids := by
  unfold qsFilterTagsIn
  rw [List.mem_flatMap]
  constructor
  · rintro ⟨a, ha, hr⟩
    rw [List.mem_map] at hr
    obtain ⟨tid, htid, rfl⟩ := hr
    rw [List.mem_filter] at htid
    exact ⟨ha, tid, htid.1, of_decide_eq_true htid.2⟩
  · rintro ⟨hr, tid, htid, hin⟩
    refine ⟨r, hr, ?_⟩
    rw [List.mem_map]
    exact ⟨tid, List.mem_filter.mpr ⟨htid, decide_eq_true hin⟩, rfl⟩

theorem mem_qsFilterIngsIn {rows : List Recipe} {ids : List Int} {r : Recipe} :
    r ∈ qsFilterIngsIn rows ids ↔
      r ∈ rows ∧ ∃ iid : Nat, iid ∈ r.ingredients ∧ (iid : Int) ∈ ids := by
  unfold qsFilterIngsIn
  rw [List.mem_flatMap]
  constructor
  · rintro ⟨a, ha, hr⟩
    rw [List.mem_map] at hr
    obtain ⟨iid, hiid, rfl⟩ := hr
    rw [List.mem_filter] at hiid
    exact ⟨ha, iid, hiid.1, of_decide_eq_true hiid.2⟩
  · rintro ⟨hr, iid, hiid, hin⟩
    refine ⟨r, hr, ?_⟩
    rw [List.mem_map]
    exact ⟨iid, List.mem_filter.mpr ⟨hiid, decide_eq_true hin⟩, rfl⟩

theorem mem_recipeListQS {db : DB} {u : Nat} {tIds iIds : Option (List Int)} {r : Recipe} :
    r ∈ recipeListQS db u tIds iIds ↔
      r ∈ db.recipes ∧ r.user = u ∧
      (∀ l, tIds = some l → ∃ tid : Nat, tid ∈ r.tags ∧ (tid : Int) ∈ l) ∧
      (∀ l, iIds = some l → ∃ iid : Nat, iid ∈ r.ingredients ∧ (iid : Int) ∈ l) := by
  unfold recipeListQS
  rw [List.mem_dedup, List.mem_insertionSort, List.mem_filter]
  simp only [beq_iff_eq]
  cases tIds with
  | none =>
    cases iIds with
    | none =>
      constructor
      · rintro ⟨h1, h3⟩
        refine ⟨h1, h3, ?_, ?_⟩
        · intro l hl; cases hl
        · intro l hl; cases hl
      · rintro ⟨h1, h2, _, _⟩
        exact ⟨h1, h2⟩
    | some li =>
      rw [mem_qsFilterIngsIn]
      constructor
      · rintro ⟨⟨h1, h2⟩, h3⟩
        refine ⟨h1, h3, ?_, ?_⟩
        · intro l hl; cases hl
        · intro l hl
          cases hl
          exact h2
      · rintro ⟨h1, h2, _, h3⟩
        exact ⟨⟨h1, h3 li rfl⟩, h2⟩
  | some lt =>
    cases iIds with
    | none =>
      rw [mem_qsFilterTagsIn]
      constructor
      · rintro ⟨⟨h1, h2⟩, h3⟩
        refine ⟨h1, h3, ?_, ?_⟩
        · intro l hl
          cases hl
          exact h2
        · intro l hl; cases hl
      · rintro ⟨h1, h2, h3, _⟩
        exact ⟨⟨h1, h3 lt rfl⟩, h2⟩
    | some li =>
      rw [mem_qsFilterIngsIn, mem_qsFilterTagsIn]
      constructor
      · rintro ⟨⟨⟨h1, h2⟩, h4⟩, h3⟩
        refine ⟨h1, h3, ?_, ?_⟩
        · intro l hl
          cases hl
          exact h2
        · intro l hl
          cases hl
          exact h4
      · rintro ⟨h1, h2, h3, h4⟩
        exact ⟨⟨⟨h1, h3 lt rfl⟩, h4 li rfl⟩, h2⟩

theorem nodup_recipeListQS {db : DB} (hnd : (db.recipes.map Recipe.id).Nodup)
    (u : Nat) (tIds iIds : Option (List Int)) :
    ((recipeListQS db u tIds iIds).map Recipe.id).Nodup := by
  have hinj : ∀ x ∈ recipeListQS db u tIds iIds, ∀ y ∈ recipeListQS db u tIds iIds,
      x.id = y.id → x = y := by
    intro x hx y hy he
    exact List.inj_on_of_nodup_map hnd (mem_recipeListQS.mp hx).1
      (mem_recipeListQS.mp hy).1 he
  exact List.Nodup.map_on hinj (List.nodup_dedup _)

theorem sorted_recipeListQS (db : DB) (u : Nat) (tIds iIds : Option (List Int)) :
    (recipeListQS db u tIds iIds).Sorted recGE :=
  List.Pairwise.sublist (List.dedup_sublist _) (List.sorted_insertionSort recGE _)

theorem mem_qsTagsAssigned {db : DB} {rows : List Tag} {t : Tag} :
    t ∈ qsTagsAssigned db rows ↔ t ∈ rows ∧ ∃ r ∈ db.recipes, t.id ∈ r.tags := by
  unfold qsTagsAssigned
  rw [List.mem_flatMap]
  constructor
  · rintro ⟨a, ha, ht⟩
    rw [List.mem_map] at ht
    obtain ⟨r, hr, rfl⟩ := ht
    rw [List.mem_filter] at hr
    exact ⟨ha, r, hr.1, of_decide_eq_true hr.2⟩
  · rintro ⟨ht, r, hr, hin⟩
    refine ⟨t, ht, ?_⟩
    rw [List.mem_map]
    exact ⟨r, List.mem_filter.mpr ⟨hr, decide_eq_true hin⟩, rfl⟩

theorem mem_qsIngsAssigned {db : DB} {rows : List Ingredient} {i : Ingredient} :
    i ∈ qsIngsAssigned db rows ↔ i ∈ rows ∧ ∃ r ∈ db.recipes, i.id ∈ r.ingredients := by
  unfold qsIngsAssigned
  rw [List.mem_flatMap]
  constructor
  · rintro ⟨a, ha, hi⟩
    rw [List.mem_map] at hi
    obtain ⟨r, hr, rfl⟩ := hi
    rw [List.mem_filter] at hr
    exact ⟨ha, r, hr.1, of_decide_eq_true hr.2⟩
  · rintro ⟨hi, r, hr, hin⟩
    refine ⟨i, hi, ?_⟩
    rw [List.mem_map]
    exact ⟨r, List.mem_filter.mpr ⟨hr, decide_eq_true hin⟩, rfl⟩

theorem mem_tagListQS {db : DB} {u : Nat} {b : Bool} {t : Tag} :
    t ∈ tagListQS db u b ↔
      t ∈ db.tags ∧ t.user = u ∧ (b = true → ∃ r ∈ db.recipes, t.id ∈ r.tags) := by
  unfold tagListQS
  rw [List.mem_dedup, List.mem_insertionSort, List.mem_filter]
  simp only [beq_iff_eq]
  cases b with
  | false =>
    constructor
    · rintro ⟨h1, h2⟩
      exact ⟨h1, h2, fun h => by cases h⟩
    · rintro ⟨h1, h2, _⟩
      exact ⟨h1, h2⟩
  | true =>
    rw [if_pos rfl, mem_qsTagsAssigned]
    constructor
    · rintro ⟨⟨h1, h2⟩, h3⟩
      exact ⟨h1, h3, fun _ => h2⟩
    · rintro ⟨h1, h2, h3⟩
      exact ⟨⟨h1, h3 rfl⟩, h2⟩

theorem mem_ingListQS {db : DB} {u : Nat} {b : Bool} {i : Ingredient} :
    i ∈ ingListQS db u b ↔
      i ∈ db.ingredients ∧ i.user = u ∧
        (b = true → ∃ r ∈ db.recipes, i.id ∈ r.ingredients) := by
  unfold ingListQS
  rw [List.mem_dedup, List.mem_insertionSort, List.mem_filter]
  simp only [beq_iff_eq]
  cases b with
  | false =>
    constructor
    · rintro ⟨h1, h2⟩
      exact ⟨h1, h2, fun h => by cases h⟩
    · rintro ⟨h1, h2, _⟩
      exact ⟨h1, h2⟩
  | true =>
    rw [if_pos rfl, mem_qsIngsAssigned]
    constructor
    · rintro ⟨⟨h1, h2⟩, h3⟩
      exact ⟨h1, h3, fun _ => h2⟩
    · rintro ⟨h1, h2, h3⟩
      exact ⟨⟨h1, h3 rfl⟩, h2⟩

theorem nodup_tagListQS {db : DB} (hnd : (db.tags.map Tag.id).Nodup)
    (u : Nat) (b : Bool) : ((tagListQS db u b).map Tag.id).Nodup := by
  have hinj : ∀ x ∈ tagListQS db u b, ∀ y ∈ tagListQS db u b, x.id = y.id → x = y := by
    intro x hx y hy he
    exact List.inj_on_of_nodup_map hnd (mem_tagListQS.mp hx).1 (mem_tagListQS.mp hy).1 he
  exact List.Nodup.map_on hinj (List.nodup_dedup _)

theorem nodup_ingListQS {db : DB} (hnd : (db.ingredients.map Ingredient.id).Nodup)
    (u : Nat) (b : Bool) : ((ingListQS db u b).map Ingredient.id).Nodup := by
  have hinj : ∀ x ∈ ingListQS db u b, ∀ y ∈ ingListQS db u b, x.id = y.id → x = y := by
    intro x hx y hy he
    exact List.inj_on_of_nodup_map hnd (mem_ingListQS.mp hx).1 (mem_ingListQS.mp hy).1 he
  exact List.Nodup.map_on hinj (List.nodup_dedup _)

theorem sorted_tagListQS (db : DB) (u : Nat) (b : Bool) :
    (tagListQS db u b).Sorted tagGE :=
  List.Pairwise.sublist (List.dedup_sublist _) (List.sorted_insertionSort tagGE _)

theorem sorted_ingListQS (db : DB) (u : Nat) (b : Bool) :
    (ingListQS db u b).Sorted ingGE :=
  List.Pairwise.sublist (List.dedup_sublist _) (List.sorted_insertionSort ingGE _)

theorem recipeGetObject_some {db : DB} {u pk : Nat} {r : Recipe}
    (h : recipeGetObject db u pk = some r) :
    r ∈ db.recipes ∧ r.user = u ∧ r.id = pk := by
  unfold recipeGetObject at h
  have hid := List.find?_some h
  have hmem := List.mem_of_find?_eq_some h
  have hm := mem_recipeListQS.mp hmem
  exact ⟨hm.1, hm.2.1, by simpa using hid⟩

theorem recipeGetObject_none_of_other {db : DB} {u : Nat} {r : Recipe}
    (hnd : (db.recipes.map Recipe.id).Nodup)
    (hr : r ∈ db.recipes) (hu : r.user ≠ u) :
    recipeGetObject db u r.id = none := by
  unfold recipeGetObject
  rw [List.find?_eq_none]
  intro x hx hbeq
  have hxx := mem_recipeListQS.mp hx
  have hxid : x.id = r.id := by simpa using hbeq
  have hxr : x = r := List.inj_on_of_nodup_map hnd hxx.1 hr hxid
  exact hu (hxr ▸ hxx.2.1)

theorem tagGetObject_some {db : DB} {u pk : Nat} {t : Tag}
    (h : tagGetObject db u pk = some t) :
    t ∈ db.tags ∧ t.user = u ∧ t.id = pk := by
  unfold tagGetObject at h
  have hid := List.find?_some h
  have hmem := List.mem_of_find?_eq_some h
  have hm := mem_tagListQS.mp hmem
  exact ⟨hm.1, hm.2.1, by simpa using hid⟩

theorem tagGetObject_none_of_other {db : DB} {u : Nat} {t : Tag}
    (hnd : (db.tags.map Tag.id).Nodup)
    (ht : t ∈ db.tags) (hu : t.user ≠ u) :
    tagGetObject db u t.id = none := by
  unfold tagGetObject
  rw [List.find?_eq_none]
  intro x hx hbeq
  have hxx := mem_tagListQS.mp hx
  have hxid : x.id = t.id := by simpa using hbeq
  have hxt : x = t := List.inj_on_of_nodup_map hnd hxx.1 ht hxid
  exact hu (hxt ▸ hxx.2.1)

theorem ingGetObject_some {db : DB} {u pk : Nat} {i : Ingredient}
    (h : ingGetObject db u pk = some i) :
    i ∈ db.ingredients ∧ i.user = u ∧ i.id = pk := by
  unfold ingGetObject at h
  have hid := List.find?_some h
  have hmem := List.mem_of_find?_eq_some h
  have hm := mem_ingListQS.mp hmem
  exact ⟨hm.1, hm.2.1, by simpa using hid⟩

theorem ingGetObject_none_of_other {db : DB} {u : Nat} {i : Ingredient}
    (hnd : (db.ingredients.map Ingredient.id).Nodup)
    (hi : i ∈ db.ingredients) (hu : i.user ≠ u) :
    ingGetObject db u i.id = none := by
  unfold ingGetObject
  rw [List.find?_eq_none]
  intro x hx hbeq
  have hxx := mem_ingListQS.mp hx
  have hxid : x.id = i.id := by simpa using hbeq
  have hxi : x = i := List.inj_on_of_nodup_map hnd hxx.1 hi hxid
  exact hu (hxi ▸ hxx.2.1)

theorem getOrCreateTag_frame (db : DB) (u : Nat) (n : String) :
    ((getOrCreateTag db u n).1).recipes = db.recipes ∧
    ((getOrCreateTag db u n).1).ingredients = db.ingredients ∧
    ((getOrCreateTag db u n).1).nextIngredientId = db.nextIngredientId ∧
    ((getOrCreateTag db u n).1).nextRecipeId = db.nextRecipeId := by
  unfold getOrCreateTag
  cases db.tags.find? (fun t => t.user == u && t.name == n) <;> simp

theorem getOrCreateIng_frame (db : DB) (u : Nat) (n : String) :
    ((getOrCreateIng db u n).1).recipes = db.recipes ∧
    ((getOrCreateIng db u n).1).tags = db.tags ∧
    ((getOrCreateIng db u n).1).nextTagId = db.nextTagId ∧
    ((getOrCreateIng db u n).1).nextRecipeId = db.nextRecipeId := by
  unfold getOrCreateIng
  cases db.ingredients.find? (fun i => i.user == u && i.name == n) <;> simp

theorem getOrCreateTags_tables (u rid : Nat) :
    ∀ (ns : List String) (db : DB),
      (getOrCreateTags db u ns rid).ingredients = db.ingredients ∧
      (getOrCreateTags db u ns rid).nextIngredientId = db.nextIngredientId ∧
      (getOrCreateTags db u ns rid).nextRecipeId = db.nextRecipeId
  | [], _ => ⟨rfl, rfl, rfl⟩
  | n :: ns, db => by
    have hstep := getOrCreateTag_frame db u n
    have ih := getOrCreateTags_tables u rid ns
      (attachTag (getOrCreateTag db u n).1 rid (getOrCreateTag db u n).2)
    unfold getOrCreateTags at ih ⊢
    rw [List.foldl_cons]
    exact ⟨ih.1.trans hstep.2.1, (ih.2.1).trans hstep.2.2.1, (ih.2.2).trans hstep.2.2.2⟩

theorem getOrCreateIngs_tables (u rid : Nat) :
    ∀ (ns : List String) (db : DB),
      (getOrCreateIngs db u ns rid).tags = db.tags ∧
      (getOrCreateIngs db u ns rid).nextTagId = db.nextTagId ∧
      (getOrCreateIngs db u ns rid).nextRecipeId = db.nextRecipeId
  | [], _ => ⟨rfl, rfl, rfl⟩
  | n :: ns, db => by
    have hstep := getOrCreateIng_frame db u n
    have ih := getOrCreateIngs_tables u rid ns
      (attachIng (getOrCreateIng db u n).1 rid (getOrCreateIng db u n).2)
    unfold getOrCreateIngs at ih ⊢
    rw [List.foldl_cons]
    exact ⟨ih.1.trans hstep.2.1, (ih.2.1).trans hstep.2.2.1, (ih.2.2).trans hstep.2.2.2⟩

theorem getOrCreateTags_shape (u rid : Nat) :
    ∀ (ns : List String) (db : DB),
      ∃ g : Recipe → Recipe,
        (getOrCreateTags db u ns rid).recipes = db.recipes.map g ∧
        ∀ r, recipeSansTags (g r) = recipeSansTags r
  | [], db => ⟨id, by simp only [getOrCreateTags, List.foldl_nil, List.map_id], fun _ => rfl⟩

  | n :: ns, db => by
    obtain ⟨g, hg, hgp⟩ := getOrCreateTags_shape u rid ns
      (attachTag (getOrCreateTag db u n).1 rid (getOrCreateTag db u n).2)
    refine ⟨fun r =>
      g (if r.id == rid then { r with tags := m2mAdd r.tags (getOrCreateTag db u n).2 }
         else r), ?_, ?_⟩
    · unfold getOrCreateTags at hg ⊢
      rw [List.foldl_cons, hg]
      show (List.map _ (attachTag (getOrCreateTag db u n).1 rid
        (getOrCreateTag db u n).2).recipes) = _
      unfold attachTag dbMapRecipe
      rw [(getOrCreateTag_frame db u n).1, List.map_map]
      rfl
    · intro r
      rw [hgp]
      by_cases h : (r.id == rid) = true <;> simp [h, recipeSansTags]

theorem getOrCreateIngs_shape (u rid : Nat) :
    ∀ (ns : List String) (db : DB),
      ∃ g : Recipe → Recipe,
        (getOrCreateIngs db u ns rid).recipes = db.recipes.map g ∧
        ∀ r, recipeSansIngs (g r) = recipeSansIngs r
  | [], db => ⟨id, by simp only [getOrCreateIngs, List.foldl_nil, List.map_id], fun _ => rfl⟩

  | n :: ns, db => by
    obtain ⟨g, hg, hgp⟩ := getOrCreateIngs_shape u rid ns
      (attachIng (getOrCreateIng db u n).1 rid (getOrCreateIng db u n).2)
    refine ⟨fun r =>
      g (if r.id == rid then
          { r with ingredients := m2mAdd r.ingredients (getOrCreateIng db u n).2 }
         else r), ?_, ?_⟩
    · unfold getOrCreateIngs at hg ⊢
      rw [List.foldl_cons, hg]
      show (List.map _ (attachIng (getOrCreateIng db u n).1 rid
        (getOrCreateIng db u n).2).recipes) = _
      unfold attachIng dbMapRecipe
      rw [(getOrCreateIng_frame db u n).1, List.map_map]
      rfl
    · intro r
      rw [hgp]
      by_cases h : (r.id == rid) = true <;> simp [h, recipeSansIngs]

theorem sansTags_fields {r s : Recipe} (h : recipeSansTags r = recipeSansTags s) :
    r.id = s.id ∧ r.user = s.user ∧ r.ingredients = s.ingredients ∧ r.image = s.image := by
  unfold recipeSansTags at h
  simp only [Prod.mk.injEq] at h
  tauto

theorem sansIngs_fields {r s : Recipe} (h : recipeSansIngs r = recipeSansIngs s) :
    r.id = s.id ∧ r.user = s.user ∧ r.tags = s.tags ∧ r.image = s.image := by
  unfold recipeSansIngs at h
  simp only [Prod.mk.injEq] at h
  tauto

theorem findRecipe_of_map {db' db : DB} {g : Recipe → Recipe}
    (hrec : db'.recipes = db.recipes.map g) (hid : ∀ r, (g r).id = r.id) (k : Nat) :
    findRecipe db' k = (findRecipe db k).map g := by
  unfold findRecipe
  rw [hrec]
  exact find?_map_of_pred _ g (fun r => by rw [hid]) db.recipes

theorem recipeTagIds_congr {db' db : DB} {g : Recipe → Recipe}
    (hrec : db'.recipes = db.recipes.map g)
    (hid : ∀ r, (g r).id = r.id) (htags : ∀ r, (g r).tags = r.tags) (k : Nat) :
    recipeTagIds db' k = recipeTagIds db k := by
  unfold recipeTagIds
  rw [findRecipe_of_map hrec hid k]
  cases findRecipe db k <;> simp [htags]

theorem recipeIngIds_congr {db' db : DB} {g : Recipe → Recipe}
    (hrec : db'.recipes = db.recipes.map g)
    (hid : ∀ r, (g r).id = r.id) (hings : ∀ r, (g r).ingredients = r.ingredients) (k : Nat) :
    recipeIngIds db' k = recipeIngIds db k := by
  unfold recipeIngIds
  rw [findRecipe_of_map hrec hid k]
  cases findRecipe db k <;> simp [hings]

theorem tagNameOf_congr {db' db : DB} (h : db'.tags = db.tags) (tid : Nat) :
    tagNameOf db' tid = tagNameOf db tid := by
  unfold tagNameOf
  rw [h]

theorem ingNameOf_congr {db' db : DB} (h : db'.ingredients = db.ingredients) (iid : Nat) :
    ingNameOf db' iid = ingNameOf db iid := by
  unfold ingNameOf
  rw [h]

theorem tagNameOf_of_mem {db : DB} {t : Tag}
    (hnd : (db.tags.map Tag.id).Nodup) (ht : t ∈ db.tags) :
    tagNameOf db t.id = some t.name := by
  unfold tagNameOf
  rw [find?_key_of_mem Tag.id db.tags t hnd ht]
  rfl

theorem ingNameOf_of_mem {db : DB} {i : Ingredient}
    (hnd : (db.ingredients.map Ingredient.id).Nodup) (hi : i ∈ db.ingredients) :
    ingNameOf db i.id = some i.name := by
  unfold ingNameOf
  rw [find?_key_of_mem Ingredient.id db.ingredients i hnd hi]
  rfl

theorem mem_recipeTagNames_iff {db : DB} {u rid : Nat} {r0 : Recipe} {t : Tag}
    (hnd : (db.tags.map Tag.id).Nodup) (huniq : TagsUniq db)
    (hfind : findRecipe db rid = some r0)
    (hown : ∀ tid ∈ r0.tags, ∃ t' ∈ db.tags, t'.id = tid ∧ t'.user = u)
    (ht : t ∈ db.tags) (htu : t.user = u) :
    t.name ∈ recipeTagNames db rid ↔ t.id ∈ r0.tags := by
  unfold recipeTagNames recipeTagIds
  rw [hfind]
  constructor
  · intro hmem
    obtain ⟨tid, htid, hname⟩ := List.mem_filterMap.mp hmem
    obtain ⟨t', ht', hid', htu'⟩ := hown tid htid
    rw [← hid', tagNameOf_of_mem hnd ht'] at hname
    have hnm : t'.name = t.name := Option.some.inj hname
    have heq : t' = t := huniq t' ht' t ht (htu'.trans htu.symm) hnm
    subst heq
    rw [hid']
    exact htid
  · intro hmem
    exact List.mem_filterMap.mpr ⟨t.id, hmem, tagNameOf_of_mem hnd ht⟩

theorem not_mem_recipeTagNames {db : DB} {u rid : Nat} {r0 : Recipe} {n : String}
    (hnd : (db.tags.map Tag.id).Nodup)
    (hfind : findRecipe db rid = some r0)
    (hown : ∀ tid ∈ r0.tags, ∃ t' ∈ db.tags, t'.id = tid ∧ t'.user = u)
    (hnone : ∀ x ∈ db.tags, ¬ (x.user == u && x.name == n) = true) :
    n ∉ recipeTagNames db rid := by
  unfold recipeTagNames recipeTagIds
  rw [hfind]
  intro hmem
  obtain ⟨tid, htid, hname⟩ := List.mem_filterMap.mp hmem
  obtain ⟨t', ht', hid', htu'⟩ := hown tid htid
  rw [← hid', tagNameOf_of_mem hnd ht'] at hname
  have hnm : t'.name = n := Option.some.inj hname
  exact hnone t' ht' (by simp [htu', hnm])

theorem mem_recipeIngNames_iff {db : DB} {u rid : Nat} {r0 : Recipe} {i : Ingredient}
    (hnd : (db.ingredients.map Ingredient.id).Nodup) (huniq : IngsUniq db)
    (hfind : findRecipe db rid = some r0)
    (hown : ∀ iid ∈ r0.ingredients, ∃ i' ∈ db.ingredients, i'.id = iid ∧ i'.user = u)
    (hi : i ∈ db.ingredients) (hiu : i.user = u) :
    i.name ∈ recipeIngNames db rid ↔ i.id ∈ r0.ingredients := by
  unfold recipeIngNames recipeIngIds
  rw [hfind]
  constructor
  · intro hmem
    obtain ⟨iid, hiid, hname⟩ := List.mem_filterMap.mp hmem
    obtain ⟨i', hi', hid', hiu'⟩ := hown iid hiid
    rw [← hid', ingNameOf_of_mem hnd hi'] at hname
    have hnm : i'.name = i.name := Option.some.inj hname
    have heq : i' = i := huniq i' hi' i hi (hiu'.trans hiu.symm) hnm
    subst heq
    rw [hid']
    exact hiid
  · intro hmem
    exact List.mem_filterMap.mpr ⟨i.id, hmem, ingNameOf_of_mem hnd hi⟩

theorem not_mem_recipeIngNames {db : DB} {u rid : Nat} {r0 : Recipe} {n : String}
    (hnd : (db.ingredients.map Ingredient.id).Nodup)
    (hfind : findRecipe db rid = some r0)
    (hown : ∀ iid ∈ r0.ingredients, ∃ i' ∈ db.ingredients, i'.id = iid ∧ i'.user = u)
    (hnone : ∀ x ∈ db.ingredients, ¬ (x.user == u && x.name == n) = true) :
    n ∉ recipeIngNames db rid := by
  unfold recipeIngNames recipeIngIds
  rw [hfind]
  intro hmem
  obtain ⟨iid, hiid, hname⟩ := List.mem_filterMap.mp hmem
  obtain ⟨i', hi', hid', hiu'⟩ := hown iid hiid
  rw [← hid', ingNameOf_of_mem hnd hi'] at hname
  have hnm : i'.name = n := Option.some.inj hname
  exact hnone i' hi' (by simp [hiu', hnm])

theorem recipeTagNames_eq {db : DB} {rid : Nat} {r0 : Recipe}
    (hfind : findRecipe db rid = some r0) :
    recipeTagNames db rid = r0.tags.filterMap (tagNameOf db) := by
  unfold recipeTagNames recipeTagIds
  rw [hfind]

theorem recipeIngNames_eq {db : DB} {rid : Nat} {r0 : Recipe}
    (hfind : findRecipe db rid = some r0) :
    recipeIngNames db rid = r0.ingredients.filterMap (ingNameOf db) := by
  unfold recipeIngNames recipeIngIds
  rw [hfind]

theorem goc_step_tag (db : DB) (u rid : Nat) (n : String) (h : TagInv db u rid) :
    TagInv (attachTag (getOrCreateTag db u n).1 rid (getOrCreateTag db u n).2) u rid ∧
    recipeTagNames (attachTag (getOrCreateTag db u n).1 rid (getOrCreateTag db u n).2) rid
      = (if n ∈ recipeTagNames db rid then recipeTagNames db rid
         else recipeTagNames db rid ++ [n]) := by
  obtain ⟨hnd, hlt, huniq, r0, hfind, huser, hown⟩ := h
  have hr0beq : (r0.id == rid) = true := by
    have hfind' := hfind
    unfold findRecipe at hfind'
    have hb := List.find?_some hfind'
    simpa using hb
  cases hf : db.tags.find? (fun t => t.user == u && t.name == n) with
  | some t =>
    have hgoc : getOrCreateTag db u n = (db, t.id) := by
      unfold getOrCreateTag
      rw [hf]
    have hgoc1 : (getOrCreateTag db u n).1 = db := by rw [hgoc]
    have hgoc2 : (getOrCreateTag db u n).2 = t.id := by rw [hgoc]
    have hteq := List.find?_some hf
    simp only [Bool.and_eq_true, beq_iff_eq] at hteq
    have htmem := List.mem_of_find?_eq_some hf
    rw [hgoc1, hgoc2]
    have hrecs : (attachTag db rid t.id).recipes
        = db.recipes.map
          (fun r => if r.id == rid then { r with tags := m2mAdd r.tags t.id } else r) := rfl
    have hid : ∀ r : Recipe,
        ((fun r => if r.id == rid then { r with tags := m2mAdd r.tags t.id } else r) r).id
          = r.id := by
      intro r
      by_cases hc : (r.id == rid) = true <;> simp [hc]
    have hfindA : findRecipe (attachTag db rid t.id) rid
        = some { r0 with tags := m2mAdd r0.tags t.id } := by
      rw [findRecipe_of_map hrecs hid rid, hfind, Option.map_some', if_pos hr0beq]
    have htagsA : (attachTag db rid t.id).tags = db.tags := rfl
    have hmemiff := mem_recipeTagNames_iff hnd huniq hfind hown htmem hteq.1
    have hnamesA : recipeTagNames (attachTag db rid t.id) rid
        = (m2mAdd r0.tags t.id).filterMap (tagNameOf db) := by
      rw [recipeTagNames_eq hfindA]
      exact List.filterMap_congr (fun x _ => tagNameOf_congr htagsA x)
    have hnamesdb : recipeTagNames db rid = r0.tags.filterMap (tagNameOf db) :=
      recipeTagNames_eq hfind
    by_cases hmem : t.id ∈ r0.tags
    · have hadd : m2mAdd r0.tags t.id = r0.tags := by
        unfold m2mAdd
        rw [if_pos hmem]
      have hn : n ∈ recipeTagNames db rid := by
        rw [← hteq.2]
        exact hmemiff.mpr hmem
      have hfindA' : findRecipe (attachTag db rid t.id) rid = some r0 := by
        rw [hfindA, hadd]
      constructor
      · exact ⟨hnd, hlt, huniq, r0, hfindA', huser, hown⟩
      · rw [if_pos hn, hnamesA, hadd, hnamesdb]
    · have hadd : m2mAdd r0.tags t.id = r0.tags ++ [t.id] := by
        unfold m2mAdd
        rw [if_neg hmem]
      have hn : n ∉ recipeTagNames db rid := by
        rw [← hteq.2]
        intro hc
        exact hmem (hmemiff.mp hc)
      constructor
      · refine ⟨hnd, hlt, huniq, { r0 with tags := m2mAdd r0.tags t.id }, hfindA, huser, ?_⟩
        intro tid htid
        simp only [hadd] at htid
        rcases List.mem_append.mp htid with h1 | h2
        · exact hown tid h1
        · rw [List.mem_singleton] at h2
          subst h2
          exact ⟨t, htmem, rfl, hteq.1⟩
      · rw [if_neg hn, hnamesA, hadd, List.filterMap_append, hnamesdb]
        congr 1
        simp only [List.filterMap_cons, List.filterMap_nil]
        rw [tagNameOf_of_mem hnd htmem, hteq.2]
  | none =>
    have hnone := List.find?_eq_none.mp hf
    have hgoc : getOrCreateTag db u n
        = ({ db with
              tags := db.tags ++ [⟨db.nextTagId, u, n⟩],
              nextTagId := db.nextTagId + 1 },
           db.nextTagId) := by
      unfold getOrCreateTag
      rw [hf]
    have hgoc1 : (getOrCreateTag db u n).1
        = { db with
              tags := db.tags ++ [⟨db.nextTagId, u, n⟩],
              nextTagId := db.nextTagId + 1 } := by rw [hgoc]
    have hgoc2 : (getOrCreateTag db u n).2 = db.nextTagId := by rw [hgoc]
    rw [hgoc1, hgoc2]
    set tnew : Tag := ⟨db.nextTagId, u, n⟩ with htnew
    set db1 : DB :=
      { db with tags := db.tags ++ [tnew], nextTagId := db.nextTagId + 1 } with hdb1
    have hfind1 : findRecipe db1 rid = some r0 := hfind
    have hrecs : (attachTag db1 rid db.nextTagId).recipes
        = db1.recipes.map
          (fun r => if r.id == rid then { r with tags := m2mAdd r.tags db.nextTagId }
                    else r) := rfl
    have hid : ∀ r : Recipe,
        ((fun r => if r.id == rid then { r with tags := m2mAdd r.tags db.nextTagId } else r)
          r).id = r.id := by
      intro r
      by_cases hc : (r.id == rid) = true <;> simp [hc]
    have hfindA : findRecipe (attachTag db1 rid db.nextTagId) rid
        = some { r0 with tags := m2mAdd r0.tags db.nextTagId } := by
      rw [findRecipe_of_map hrecs hid rid, hfind1, Option.map_some', if_pos hr0beq]
    have htagsA : (attachTag db1 rid db.nextTagId).tags = db.tags ++ [tnew] := rfl
    have hnotin : db.nextTagId ∉ r0.tags := by
      intro hc
      obtain ⟨t', ht', hid', _⟩ := hown db.nextTagId hc
      exact absurd (hid' ▸ hlt t' ht') (lt_irrefl _)
    have hadd : m2mAdd r0.tags db.nextTagId = r0.tags ++ [db.nextTagId] := by
      unfold m2mAdd
      rw [if_neg hnotin]
    have hn : n ∉ recipeTagNames db rid := not_mem_recipeTagNames hnd hfind hown hnone
    have hold : ∀ tid ∈ r0.tags, tagNameOf db1 tid = tagNameOf db tid := by
      intro tid htid
      obtain ⟨t', ht', hid', _⟩ := hown tid htid
      unfold tagNameOf
      show ((db.tags ++ [tnew]).find? (fun x => x.id == tid)).map Tag.name = _
      rw [find?_append_of_isSome]
      rw [List.find?_isSome]
      exact ⟨t', ht', by simp [hid']⟩
    have hnew : tagNameOf db1 db.nextTagId = some n := by
      unfold tagNameOf
      show ((db.tags ++ [tnew]).find? (fun x => x.id == db.nextTagId)).map Tag.name = _
      rw [List.find?_append]
      have h1 : db.tags.find? (fun x => x.id == db.nextTagId) = none := by
        rw [List.find?_eq_none]
        intro x hx hbeq
        have hxid : x.id = db.nextTagId := by simpa using hbeq
        exact absurd (hxid ▸ hlt x hx) (lt_irrefl _)
      rw [h1]
      simp [htnew]
    have hnamesA : recipeTagNames (attachTag db1 rid db.nextTagId) rid
        = recipeTagNames db rid ++ [n] := by
      rw [recipeTagNames_eq hfindA]
      have hcg : (m2mAdd r0.tags db.nextTagId).filterMap
          (tagNameOf (attachTag db1 rid db.nextTagId))
          = (m2mAdd r0.tags db.nextTagId).filterMap (tagNameOf db1) :=
        List.filterMap_congr (fun x _ => tagNameOf_congr htagsA x)
      rw [hcg, hadd, List.filterMap_append, recipeTagNames_eq hfind]
      congr 1
      · exact List.filterMap_congr hold
      · simp only [List.filterMap_cons, List.filterMap_nil]
        rw [hnew]
    refine ⟨?_, ?_⟩
    · refine ⟨?_, ?_, ?_, ⟨{ r0 with tags := m2mAdd r0.tags db.nextTagId }, hfindA, huser, ?_⟩⟩
      · show ((db.tags ++ [tnew]).map Tag.id).Nodup
        rw [List.map_append, List.nodup_append]
        refine ⟨hnd, List.nodup_singleton _, ?_⟩
        intro x hx hxs
        obtain ⟨t', ht', hid'⟩ := List.mem_map.mp hx
        simp only [List.map_cons, List.map_nil, List.mem_singleton] at hxs
        subst hxs
        exact absurd (hid' ▸ hlt t' ht') (lt_irrefl _)
      · show ∀ t ∈ db.tags ++ [tnew], t.id < db.nextTagId + 1
        intro t ht
        rcases List.mem_append.mp ht with h1 | h2
        · exact Nat.lt_succ_of_lt (hlt t h1)
        · rw [List.mem_singleton] at h2
          subst h2
          exact Nat.lt_succ_self _
      · show TagsUniq db1
        intro t1 ht1 t2 ht2 hu12 hn12
        have ht1' : t1 ∈ db.tags ++ [tnew] := ht1
        have ht2' : t2 ∈ db.tags ++ [tnew] := ht2
        rcases List.mem_append.mp ht1' with ha1 | hb1 <;>
          rcases List.mem_append.mp ht2' with ha2 | hb2
        · exact huniq t1 ha1 t2 ha2 hu12 hn12
        · rw [List.mem_singleton] at hb2
          subst hb2
          exact absurd (hnone t1 ha1) (by simp [hu12, hn12])
        · rw [List.mem_singleton] at hb1
          subst hb1
          exact absurd (hnone t2 ha2) (by simp [hu12.symm, hn12.symm])
        · rw [List.mem_singleton] at hb1 hb2
          rw [hb1, hb2]
      · intro tid htid
        simp only [hadd] at htid
        rcases List.mem_append.mp htid with h1 | h2
        · obtain ⟨t', ht', hid', htu'⟩ := hown tid h1
          exact ⟨t', List.mem_append_left _ ht', hid', htu'⟩
        · rw [List.mem_singleton] at h2
          subst h2
          exact ⟨tnew, List.mem_append_right _ (List.mem_singleton_self _), rfl, rfl⟩
    · rw [if_neg hn, hnamesA]

theorem goc_step_ing (db : DB) (u rid : Nat) (n : String) (h : IngInv db u rid) :
    IngInv (attachIng (getOrCreateIng db u n).1 rid (getOrCreateIng db u n).2) u rid ∧
    recipeIngNames (attachIng (getOrCreateIng db u n).1 rid (getOrCreateIng db u n).2) rid
      = (if n ∈ recipeIngNames db rid then recipeIngNames db rid
         else recipeIngNames db rid ++ [n]) := by
  obtain ⟨hnd, hlt, huniq, r0, hfind, huser, hown⟩ := h
  have hr0beq : (r0.id == rid) = true := by
    have hfind' := hfind
    unfold findRecipe at hfind'
    have hb := List.find?_some hfind'
    simpa using hb
  cases hf : db.ingredients.find? (fun t => t.user == u && t.name == n) with
  | some t =>
    have hgoc : getOrCreateIng db u n = (db, t.id) := by
      unfold getOrCreateIng
      rw [hf]
    have hgoc1 : (getOrCreateIng db u n).1 = db := by rw [hgoc]
    have hgoc2 : (getOrCreateIng db u n).2 = t.id := by rw [hgoc]
    have hteq := List.find?_some hf
    simp only [Bool.and_eq_true, beq_iff_eq] at hteq
    have htmem := List.mem_of_find?_eq_some hf
    rw [hgoc1, hgoc2]
    have hrecs : (attachIng db rid t.id).recipes
        = db.recipes.map
          (fun r => if r.id == rid then { r with ingredients := m2mAdd r.ingredients t.id } else r) := rfl
    have hid : ∀ r : Recipe,
        ((fun r => if r.id == rid then { r with ingredients := m2mAdd r.ingredients t.id } else r) r).id
          = r.id := by
      intro r
      by_cases hc : (r.id == rid) = true <;> simp [hc]
    have hfindA : findRecipe (attachIng db rid t.id) rid
        = some { r0 with ingredients := m2mAdd r0.ingredients t.id } := by
      rw [findRecipe_of_map hrecs hid rid, hfind, Option.map_some', if_pos hr0beq]
    have htagsA : (attachIng db rid t.id).ingredients = db.ingredients := rfl
    have hmemiff := mem_recipeIngNames_iff hnd huniq hfind hown htmem hteq.1
    have hnamesA : recipeIngNames (attachIng db rid t.id) rid
        = (m2mAdd r0.ingredients t.id).filterMap (ingNameOf db) := by
      rw [recipeIngNames_eq hfindA]
      exact List.filterMap_congr (fun x _ => ingNameOf_congr htagsA x)
    have hnamesdb : recipeIngNames db rid = r0.ingredients.filterMap (ingNameOf db) :=
      recipeIngNames_eq hfind
    by_cases hmem : t.id ∈ r0.ingredients
    · have hadd : m2mAdd r0.ingredients t.id = r0.ingredients := by
        unfold m2mAdd
        rw [if_pos hmem]
      have hn : n ∈ recipeIngNames db rid := by
        rw [← hteq.2]
        exact hmemiff.mpr hmem
      have hfindA' : findRecipe (attachIng db rid t.id) rid = some r0 := by
        rw [hfindA, hadd]
      constructor
      · exact ⟨hnd, hlt, huniq, r0, hfindA', huser, hown⟩
      · rw [if_pos hn, hnamesA, hadd, hnamesdb]
    · have hadd : m2mAdd r0.ingredients t.id = r0.ingredients ++ [t.id] := by
        unfold m2mAdd
        rw [if_neg hmem]
      have hn : n ∉ recipeIngNames db rid := by
        rw [← hteq.2]
        intro hc
        exact hmem (hmemiff.mp hc)
      constructor
      · refine ⟨hnd, hlt, huniq, { r0 with ingredients := m2mAdd r0.ingredients t.id }, hfindA, huser, ?_⟩
        intro tid htid
        simp only [hadd] at htid
        rcases List.mem_append.mp htid with h1 | h2
        · exact hown tid h1
        · rw [List.mem_singleton] at h2
          subst h2
          exact ⟨t, htmem, rfl, hteq.1⟩
      · rw [if_neg hn, hnamesA, hadd, List.filterMap_append, hnamesdb]
        congr 1
        simp only [List.filterMap_cons, List.filterMap_nil]
        rw [ingNameOf_of_mem hnd htmem, hteq.2]
  | none =>
    have hnone := List.find?_eq_none.mp hf
    have hgoc : getOrCreateIng db u n
        = ({ db with
              ingredients := db.ingredients ++ [⟨db.nextIngredientId, u, n⟩],
              nextIngredientId := db.nextIngredientId + 1 },
           db.nextIngredientId) := by
      unfold getOrCreateIng
      rw [hf]
    have hgoc1 : (getOrCreateIng db u n).1
        = { db with
              ingredients := db.ingredients ++ [⟨db.nextIngredientId, u, n⟩],
              nextIngredientId := db.nextIngredientId + 1 } := by rw [hgoc]
    have hgoc2 : (getOrCreateIng db u n).2 = db.nextIngredientId := by rw [hgoc]
    rw [hgoc1, hgoc2]
    set tnew : Ingredient := ⟨db.nextIngredientId, u, n⟩ with htnew
    set db1 : DB :=
      { db with ingredients := db.ingredients ++ [tnew], nextIngredientId := db.nextIngredientId + 1 } with hdb1
    have hfind1 : findRecipe db1 rid = some r0 := hfind
    have hrecs : (attachIng db1 rid db.nextIngredientId).recipes
        = db1.recipes.map
          (fun r => if r.id == rid then { r with ingredients := m2mAdd r.ingredients db.nextIngredientId }
                    else r) := rfl
    have hid : ∀ r : Recipe,
        ((fun r => if r.id == rid then { r with ingredients := m2mAdd r.ingredients db.nextIngredientId } else r)
          r).id = r.id := by
      intro r
      by_cases hc : (r.id == rid) = true <;> simp [hc]
    have hfindA : findRecipe (attachIng db1 rid db.nextIngredientId) rid
        = some { r0 with ingredients := m2mAdd r0.ingredients db.nextIngredientId } := by
      rw [findRecipe_of_map hrecs hid rid, hfind1, Option.map_some', if_pos hr0beq]
    have htagsA : (attachIng db1 rid db.nextIngredientId).ingredients = db.ingredients ++ [tnew] := rfl
    have hnotin : db.nextIngredientId ∉ r0.ingredients := by
      intro hc
      obtain ⟨t', ht', hid', _⟩ := hown db.nextIngredientId hc
      exact absurd (hid' ▸ hlt t' ht') (lt_irrefl _)
    have hadd : m2mAdd r0.ingredients db.nextIngredientId = r0.ingredients ++ [db.nextIngredientId] := by
      unfold m2mAdd
      rw [if_neg hnotin]
    have hn : n ∉ recipeIngNames db rid := not_mem_recipeIngNames hnd hfind hown hnone
    have hold : ∀ tid ∈ r0.ingredients, ingNameOf db1 tid = ingNameOf db tid := by
      intro tid htid
      obtain ⟨t', ht', hid', _⟩ := hown tid htid
      unfold ingNameOf
      show ((db.ingredients ++ [tnew]).find? (fun x => x.id == tid)).map Ingredient.name = _
      rw [find?_append_of_isSome]
      rw [List.find?_isSome]
      exact ⟨t', ht', by simp [hid']⟩
    have hnew : ingNameOf db1 db.nextIngredientId = some n := by
      unfold ingNameOf
      show ((db.ingredients ++ [tnew]).find? (fun x => x.id == db.nextIngredientId)).map Ingredient.name = _
      rw [List.find?_append]
      have h1 : db.ingredients.find? (fun x => x.id == db.nextIngredientId) = none := by
        rw [List.find?_eq_none]
        intro x hx hbeq
        have hxid : x.id = db.nextIngredientId := by simpa using hbeq
        exact absurd (hxid ▸ hlt x hx) (lt_irrefl _)
      rw [h1]
      simp [htnew]
    have hnamesA : recipeIngNames (attachIng db1 rid db.nextIngredientId) rid
        = recipeIngNames db rid ++ [n] := by
      rw [recipeIngNames_eq hfindA]
      have hcg : (m2mAdd r0.ingredients db.nextIngredientId).filterMap
          (ingNameOf (attachIng db1 rid db.nextIngredientId))
          = (m2mAdd r0.ingredients db.nextIngredientId).filterMap (ingNameOf db1) :=
        List.filterMap_congr (fun x _ => ingNameOf_congr htagsA x)
      rw [hcg, hadd, List.filterMap_append, recipeIngNames_eq hfind]
      congr 1
      · exact List.filterMap_congr hold
      · simp only [List.filterMap_cons, List.filterMap_nil]
        rw [hnew]
    refine ⟨?_, ?_⟩
    · refine ⟨?_, ?_, ?_, ⟨{ r0 with ingredients := m2mAdd r0.ingredients db.nextIngredientId }, hfindA, huser, ?_⟩⟩
      · show ((db.ingredients ++ [tnew]).map Ingredient.id).Nodup
        rw [List.map_append, List.nodup_append]
        refine ⟨hnd, List.nodup_singleton _, ?_⟩
        intro x hx hxs
        obtain ⟨t', ht', hid'⟩ := List.mem_map.mp hx
        simp only [List.map_cons, List.map_nil, List.mem_singleton] at hxs
        subst hxs
        exact absurd (hid' ▸ hlt t' ht') (lt_irrefl _)
      · show ∀ t ∈ db.ingredients ++ [tnew], t.id < db.nextIngredientId + 1
        intro t ht
        rcases List.mem_append.mp ht with h1 | h2
        · exact Nat.lt_succ_of_lt (hlt t h1)
        · rw [List.mem_singleton] at h2
          subst h2
          exact Nat.lt_succ_self _
      · show IngsUniq db1
        intro t1 ht1 t2 ht2 hu12 hn12
        have ht1' : t1 ∈ db.ingredients ++ [tnew] := ht1
        have ht2' : t2 ∈ db.ingredients ++ [tnew] := ht2
        rcases List.mem_append.mp ht1' with ha1 | hb1 <;>
          rcases List.mem_append.mp ht2' with ha2 | hb2
        · exact huniq t1 ha1 t2 ha2 hu12 hn12
        · rw [List.mem_singleton] at hb2
          subst hb2
          exact absurd (hnone t1 ha1) (by simp [hu12, hn12])
        · rw [List.mem_singleton] at hb1
          subst hb1
          exact absurd (hnone t2 ha2) (by simp [hu12.symm, hn12.symm])
        · rw [List.mem_singleton] at hb1 hb2
          rw [hb1, hb2]
      · intro tid htid
        simp only [hadd] at htid
        rcases List.mem_append.mp htid with h1 | h2
        · obtain ⟨t', ht', hid', htu'⟩ := hown tid h1
          exact ⟨t', List.mem_append_left _ ht', hid', htu'⟩
        · rw [List.mem_singleton] at h2
          subst h2
          exact ⟨tnew, List.mem_append_right _ (List.mem_singleton_self _), rfl, rfl⟩
    · rw [if_neg hn, hnamesA]

theorem goctags_trace (u rid : Nat) :
    ∀ (ns : List String) (db : DB), TagInv db u rid →
      TagInv (getOrCreateTags db u ns rid) u rid ∧
      recipeTagNames (getOrCreateTags db u ns rid) rid
        = dedupAcc (recipeTagNames db rid) ns
  | [], _, h => ⟨h, rfl⟩
  | n :: ns, db, h => by
    obtain ⟨h1, h2⟩ := goc_step_tag db u rid n h
    obtain ⟨h3, h4⟩ := goctags_trace u rid ns
      (attachTag (getOrCreateTag db u n).1 rid (getOrCreateTag db u n).2) h1
    refine ⟨h3, ?_⟩
    show recipeTagNames (getOrCreateTags
      (attachTag (getOrCreateTag db u n).1 rid (getOrCreateTag db u n).2) u ns rid) rid = _
    rw [h4, h2]
    show dedupAcc (if n ∈ recipeTagNames db rid then recipeTagNames db rid
      else recipeTagNames db rid ++ [n]) ns = dedupAcc (recipeTagNames db rid) (n :: ns)
    rfl

theorem gocings_trace (u rid : Nat) :
    ∀ (ns : List String) (db : DB), IngInv db u rid →
      IngInv (getOrCreateIngs db u ns rid) u rid ∧
      recipeIngNames (getOrCreateIngs db u ns rid) rid
        = dedupAcc (recipeIngNames db rid) ns
  | [], _, h => ⟨h, rfl⟩
  | n :: ns, db, h => by
    obtain ⟨h1, h2⟩ := goc_step_ing db u rid n h
    obtain ⟨h3, h4⟩ := gocings_trace u rid ns
      (attachIng (getOrCreateIng db u n).1 rid (getOrCreateIng db u n).2) h1
    refine ⟨h3, ?_⟩
    show recipeIngNames (getOrCreateIngs
      (attachIng (getOrCreateIng db u n).1 rid (getOrCreateIng db u n).2) u ns rid) rid = _
    rw [h4, h2]
    show dedupAcc (if n ∈ recipeIngNames db rid then recipeIngNames db rid
      else recipeIngNames db rid ++ [n]) ns = dedupAcc (recipeIngNames db rid) (n :: ns)
    rfl

theorem getOrCreateTag_tbl (db : DB) (u : Nat) (n : String) (h : TagTbl db) :
    TagTbl (getOrCreateTag db u n).1 := by
  obtain ⟨hnd, hlt, huniq⟩ := h
  cases hf : db.tags.find? (fun t => t.user == u && t.name == n) with
  | some t =>
    have hgoc1 : (getOrCreateTag db u n).1 = db := by
      unfold getOrCreateTag
      rw [hf]
    rw [hgoc1]
    exact ⟨hnd, hlt, huniq⟩
  | none =>
    have hnone := List.find?_eq_none.mp hf
    have hgoc1 : (getOrCreateTag db u n).1
        = { db with
              tags := db.tags ++ [⟨db.nextTagId, u, n⟩],
              nextTagId := db.nextTagId + 1 } := by
      unfold getOrCreateTag
      rw [hf]
    rw [hgoc1]
    refine ⟨?_, ?_, ?_⟩
    · show ((db.tags ++ [(⟨db.nextTagId, u, n⟩ : Tag)]).map Tag.id).Nodup
      rw [List.map_append, List.nodup_append]
      refine ⟨hnd, List.nodup_singleton _, ?_⟩
      intro x hx hxs
      obtain ⟨t', ht', hid'⟩ := List.mem_map.mp hx
      simp only [List.map_cons, List.map_nil, List.mem_singleton] at hxs
      subst hxs
      exact absurd (hid' ▸ hlt t' ht') (lt_irrefl _)
    · show ∀ t ∈ db.tags ++ [(⟨db.nextTagId, u, n⟩ : Tag)], t.id < db.nextTagId + 1
      intro t ht
      rcases List.mem_append.mp ht with h1 | h2
      · exact Nat.lt_succ_of_lt (hlt t h1)
      · rw [List.mem_singleton] at h2
        subst h2
        exact Nat.lt_succ_self _
    · intro t1 ht1 t2 ht2 hu12 hn12
      have ht1' : t1 ∈ db.tags ++ [(⟨db.nextTagId, u, n⟩ : Tag)] := ht1
      have ht2' : t2 ∈ db.tags ++ [(⟨db.nextTagId, u, n⟩ : Tag)] := ht2
      rcases List.mem_append.mp ht1' with ha1 | hb1 <;>
        rcases List.mem_append.mp ht2' with ha2 | hb2
      · exact huniq t1 ha1 t2 ha2 hu12 hn12
      · rw [List.mem_singleton] at hb2
        subst hb2
        exact absurd (hnone t1 ha1) (by simp [hu12, hn12])
      · rw [List.mem_singleton] at hb1
        subst hb1
        exact absurd (hnone t2 ha2) (by simp [hu12.symm, hn12.symm])
      · rw [List.mem_singleton] at hb1 hb2
        rw [hb1, hb2]

theorem getOrCreateIng_tbl (db : DB) (u : Nat) (n : String) (h : IngTbl db) :
    IngTbl (getOrCreateIng db u n).1 := by
  obtain ⟨hnd, hlt, huniq⟩ := h
  cases hf : db.ingredients.find? (fun i => i.user == u && i.name == n) with
  | some i =>
    have hgoc1 : (getOrCreateIng db u n).1 = db := by
      unfold getOrCreateIng
      rw [hf]
    rw [hgoc1]
    exact ⟨hnd, hlt, huniq⟩
  | none =>
    have hnone := List.find?_eq_none.mp hf
    have hgoc1 : (getOrCreateIng db u n).1
        = { db with
              ingredients := db.ingredients ++ [⟨db.nextIngredientId, u, n⟩],
              nextIngredientId := db.nextIngredientId + 1 } := by
      unfold getOrCreateIng
      rw [hf]
    rw [hgoc1]
    refine ⟨?_, ?_, ?_⟩
    · show ((db.ingredients ++ [(⟨db.nextIngredientId, u, n⟩ : Ingredient)]).map Ingredient.id).Nodup
      rw [List.map_append, List.nodup_append]
      refine ⟨hnd, List.nodup_singleton _, ?_⟩
      intro x hx hxs
      obtain ⟨i', hi', hid'⟩ := List.mem_map.mp hx
      simp only [List.map_cons, List.map_nil, List.mem_singleton] at hxs
      subst hxs
      exact absurd (hid' ▸ hlt i' hi') (lt_irrefl _)
    · show ∀ i ∈ db.ingredients ++ [(⟨db.nextIngredientId, u, n⟩ : Ingredient)],
        i.id < db.nextIngredientId + 1
      intro i hi
      rcases List.mem_append.mp hi with h1 | h2
      · exact Nat.lt_succ_of_lt (hlt i h1)
      · rw [List.mem_singleton] at h2
        subst h2
        exact Nat.lt_succ_self _
    · intro i1 hi1 i2 hi2 hu12 hn12
      have hi1' : i1 ∈ db.ingredients ++ [(⟨db.nextIngredientId, u, n⟩ : Ingredient)] := hi1
      have hi2' : i2 ∈ db.ingredients ++ [(⟨db.nextIngredientId, u, n⟩ : Ingredient)] := hi2
      rcases List.mem_append.mp hi1' with ha1 | hb1 <;>
        rcases List.mem_append.mp hi2' with ha2 | hb2
      · exact huniq i1 ha1 i2 ha2 hu12 hn12
      · rw [List.mem_singleton] at hb2
        subst hb2
        exact absurd (hnone i1 ha1) (by simp [hu12, hn12])
      · rw [List.mem_singleton] at hb1
        subst hb1
        exact absurd (hnone i2 ha2) (by simp [hu12.symm, hn12.symm])
      · rw [List.mem_singleton] at hb1 hb2
        rw [hb1, hb2]

theorem getOrCreateTags_tbl (u rid : Nat) :
    ∀ (ns : List String) (db : DB), TagTbl db → TagTbl (getOrCreateTags db u ns rid)
  | [], _, h => h
  | n :: ns, db, h => by
    have h1 := getOrCreateTag_tbl db u n h
    have h2 : TagTbl (attachTag (getOrCreateTag db u n).1 rid (getOrCreateTag db u n).2) := h1
    exact getOrCreateTags_tbl u rid ns _ h2

theorem getOrCreateIngs_tbl (u rid : Nat) :
    ∀ (ns : List String) (db : DB), IngTbl db → IngTbl (getOrCreateIngs db u ns rid)
  | [], _, h => h
  | n :: ns, db, h => by
    have h1 := getOrCreateIng_tbl db u n h
    have h2 : IngTbl (attachIng (getOrCreateIng db u n).1 rid (getOrCreateIng db u n).2) := h1
    exact getOrCreateIngs_tbl u rid ns _ h2

theorem tagTbl_congr {db' db : DB} (ht : db'.tags = db.tags)
    (hn : db'.nextTagId = db.nextTagId) (h : TagTbl db) : TagTbl db' := by
  obtain ⟨h1, h2, h3⟩ := h
  refine ⟨?_, ?_, ?_⟩
  · rw [ht]
    exact h1
  · rw [ht, hn]
    exact h2
  · show TagsUniq db'
    unfold TagsUniq
    rw [ht]
    exact h3

theorem ingTbl_congr {db' db : DB} (hi : db'.ingredients = db.ingredients)
    (hn : db'.nextIngredientId = db.nextIngredientId) (h : IngTbl db) : IngTbl db' := by
  obtain ⟨h1, h2, h3⟩ := h
  refine ⟨?_, ?_, ?_⟩
  · rw [hi]
    exact h1
  · rw [hi, hn]
    exact h2
  · show IngsUniq db'
    unfold IngsUniq
    rw [hi]
    exact h3

theorem findRecipe_of_mem {db : DB} {r : Recipe} (hnd : (db.recipes.map Recipe.id).Nodup)
    (hr : r ∈ db.recipes) : findRecipe db r.id = some r := by
  unfold findRecipe
  rw [find?_key_of_mem Recipe.id db.recipes r hnd hr]

theorem findRecipe_dbMapRecipe {db : DB} (rid k : Nat) (f : Recipe → Recipe)
    (hid : ∀ r, (f r).id = r.id) :
    findRecipe (dbMapRecipe db rid f) k
      = (findRecipe db k).map (fun r => if r.id == rid then f r else r) := by
  apply findRecipe_of_map rfl
  intro r
  by_cases hc : (r.id == rid) = true <;> simp [hc, hid]

theorem recipeTagNames_congr {db' db : DB} {g : Recipe → Recipe}
    (htags : db'.tags = db.tags) (hrec : db'.recipes = db.recipes.map g)
    (hid : ∀ r, (g r).id = r.id) (htg : ∀ r, (g r).tags = r.tags) (k : Nat) :
    recipeTagNames db' k = recipeTagNames db k := by
  unfold recipeTagNames
  rw [recipeTagIds_congr hrec hid htg k]
  exact List.filterMap_congr (fun x _ => tagNameOf_congr htags x)

theorem recipeIngNames_congr {db' db : DB} {g : Recipe → Recipe}
    (hings : db'.ingredients = db.ingredients) (hrec : db'.recipes = db.recipes.map g)
    (hid : ∀ r, (g r).id = r.id) (hig : ∀ r, (g r).ingredients = r.ingredients) (k : Nat) :
    recipeIngNames db' k = recipeIngNames db k := by
  unfold recipeIngNames
  rw [recipeIngIds_congr hrec hid hig k]
  exact List.filterMap_congr (fun x _ => ingNameOf_congr hings x)

theorem idUser_map_dbMapRecipe (db : DB) (rid : Nat) (f : Recipe → Recipe)
    (hids : ∀ r, idUser (f r) = idUser r) :
    (dbMapRecipe db rid f).recipes.map idUser = db.recipes.map idUser := by
  show (db.recipes.map (fun r => if r.id == rid then f r else r)).map idUser = _
  rw [List.map_map]
  apply List.map_congr_left
  intro a _
  show idUser (if a.id == rid then f a else a) = idUser a
  by_cases hc : (a.id == rid) = true <;> simp [hc, hids]

theorem goctags_idUser (u rid : Nat) (ns : List String) (db : DB) :
    (getOrCreateTags db u ns rid).recipes.map idUser = db.recipes.map idUser := by
  obtain ⟨g, hg, hgp⟩ := getOrCreateTags_shape u rid ns db
  rw [hg, List.map_map]
  apply List.map_congr_left
  intro a _
  have hfs := sansTags_fields (hgp a)
  show idUser (g a) = idUser a
  unfold idUser
  rw [hfs.1, hfs.2.1]

theorem gocings_idUser (u rid : Nat) (ns : List String) (db : DB) :
    (getOrCreateIngs db u ns rid).recipes.map idUser = db.recipes.map idUser := by
  obtain ⟨g, hg, hgp⟩ := getOrCreateIngs_shape u rid ns db
  rw [hg, List.map_map]
  apply List.map_congr_left
  intro a _
  have hfs := sansIngs_fields (hgp a)
  show idUser (g a) = idUser a
  unfold idUser
  rw [hfs.1, hfs.2.1]

theorem tagInv_clear {db : DB} {u rid : Nat} {robj : Recipe}
    (htbl : TagTbl db) (hfind : findRecipe db rid = some robj) (huser : robj.user = u) :
    TagInv (dbClearTags db rid) u rid := by
  obtain ⟨h1, h2, h3⟩ := htbl
  have hr0beq : (robj.id == rid) = true := by
    have hfind' := hfind
    unfold findRecipe at hfind'
    have hb := List.find?_some hfind'
    simpa using hb
  have hfindc : findRecipe (dbClearTags db rid) rid = some { robj with tags := [] } := by
    unfold dbClearTags
    rw [findRecipe_dbMapRecipe rid rid (fun r => { r with tags := [] }) (fun r => rfl),
      hfind, Option.map_some', if_pos hr0beq]
  exact ⟨h1, h2, h3, { robj with tags := [] }, hfindc, huser, fun tid htid => by cases htid⟩

theorem ingInv_clear {db : DB} {u rid : Nat} {robj : Recipe}
    (htbl : IngTbl db) (hfind : findRecipe db rid = some robj) (huser : robj.user = u) :
    IngInv (dbClearIngs db rid) u rid := by
  obtain ⟨h1, h2, h3⟩ := htbl
  have hr0beq : (robj.id == rid) = true := by
    have hfind' := hfind
    unfold findRecipe at hfind'
    have hb := List.find?_some hfind'
    simpa using hb
  have hfindc : findRecipe (dbClearIngs db rid) rid
      = some { robj with ingredients := [] } := by
    unfold dbClearIngs
    rw [findRecipe_dbMapRecipe rid rid (fun r => { r with ingredients := [] }) (fun r => rfl),
      hfind, Option.map_some', if_pos hr0beq]
  exact ⟨h1, h2, h3, { robj with ingredients := [] }, hfindc, huser,
    fun iid hiid => by cases hiid⟩

theorem recipeUpdate_notFound {db : DB} {u rid : Nat} {p : RecipeUpdatePayload}
    (h : recipeGetObject db u rid = none) : recipeUpdate db u rid p = (.notFound, db) := by
  unfold recipeUpdate
  rw [h]

theorem recipeUpdate_found {db : DB} {u rid : Nat} {p : RecipeUpdatePayload} {r : Recipe}
    (h : recipeGetObject db u rid = some r) :
    recipeUpdate db u rid p = (.ok, recipeUpdateApply db u rid p) := by
  unfold recipeUpdate
  rw [h]

theorem recipeDestroy_notFound {db : DB} {u rid : Nat}
    (h : recipeGetObject db u rid = none) : recipeDestroy db u rid = (.notFound, db) := by
  unfold recipeDestroy
  rw [h]

theorem recipeRetrieve_notFound {db : DB} {u rid : Nat}
    (h : recipeGetObject db u rid = none) : recipeRetrieve db u rid = (.notFound, none) := by
  unfold recipeRetrieve
  rw [h]

theorem uploadImage_notFound {db : DB} {u rid : Nat} {file : Option UploadedFile}
    (h : recipeGetObject db u rid = none) : uploadImage db u rid file = (.notFound, db) := by
  unfold uploadImage
  rw [h]

theorem tagUpdate_notFound {db : DB} {u tid : Nat} {n : String}
    (h : tagGetObject db u tid = none) : tagUpdate db u tid n = (.notFound, db) := by
  unfold tagUpdate
  rw [h]

theorem tagDestroy_notFound {db : DB} {u tid : Nat}
    (h : tagGetObject db u tid = none) : tagDestroy db u tid = (.notFound, db) := by
  unfold tagDestroy
  rw [h]

theorem ingUpdate_notFound {db : DB} {u iid : Nat} {n : String}
    (h : ingGetObject db u iid = none) : ingUpdate db u iid n = (.notFound, db) := by
  unfold ingUpdate
  rw [h]

theorem ingDestroy_notFound {db : DB} {u iid : Nat}
    (h : ingGetObject db u iid = none) : ingDestroy db u iid = (.notFound, db) := by
  unfold ingDestroy
  rw [h]

theorem tagInv_congr {db' db : DB} {g : Recipe → Recipe} {u rid : Nat}
    (htags : db'.tags = db.tags) (hnt : db'.nextTagId = db.nextTagId)
    (hrec : db'.recipes = db.recipes.map g)
    (hid : ∀ r, (g r).id = r.id) (htg : ∀ r, (g r).tags = r.tags)
    (hus : ∀ r, (g r).user = r.user)
    (h : TagInv db u rid) : TagInv db' u rid := by
  obtain ⟨h1, h2, h3, r0, hf, hu, ho⟩ := h
  refine ⟨by rw [htags]; exact h1, by rw [htags, hnt]; exact h2,
    by show TagsUniq db'; unfold TagsUniq; rw [htags]; exact h3,
    g r0, ?_, by rw [hus, hu], ?_⟩
  · rw [findRecipe_of_map hrec hid rid, hf, Option.map_some']
  · intro tid htid
    rw [htg] at htid
    obtain ⟨t, ht, hti, htu⟩ := ho tid htid
    exact ⟨t, by rw [htags]; exact ht, hti, htu⟩

theorem ingInv_congr {db' db : DB} {g : Recipe → Recipe} {u rid : Nat}
    (hings : db'.ingredients = db.ingredients)
    (hni : db'.nextIngredientId = db.nextIngredientId)
    (hrec : db'.recipes = db.recipes.map g)
    (hid : ∀ r, (g r).id = r.id) (hig : ∀ r, (g r).ingredients = r.ingredients)
    (hus : ∀ r, (g r).user = r.user)
    (h : IngInv db u rid) : IngInv db' u rid := by
  obtain ⟨h1, h2, h3, r0, hf, hu, ho⟩ := h
  refine ⟨by rw [hings]; exact h1, by rw [hings, hni]; exact h2,
    by show IngsUniq db'; unfold IngsUniq; rw [hings]; exact h3,
    g r0, ?_, by rw [hus, hu], ?_⟩
  · rw [findRecipe_of_map hrec hid rid, hf, Option.map_some']
  · intro iid hiid
    rw [hig] at hiid
    obtain ⟨i, hi, hii, hiu⟩ := ho iid hiid
    exact ⟨i, by rw [hings]; exact hi, hii, hiu⟩

theorem tagIds_length_of_inv {db : DB} {u rid : Nat} (h : TagInv db u rid) :
    (recipeTagNames db rid).length = (recipeTagIds db rid).length := by
  obtain ⟨hnd, _, _, r0, hf, _, ho⟩ := h
  unfold recipeTagNames
  apply length_filterMap_of_isSome
  intro tid htid
  unfold recipeTagIds at htid
  rw [hf] at htid
  obtain ⟨t, ht, hti, _⟩ := ho tid htid
  unfold tagNameOf
  rw [Option.isSome_map']
  rw [List.find?_isSome]
  exact ⟨t, ht, by simp [hti]⟩

theorem ingIds_length_of_inv {db : DB} {u rid : Nat} (h : IngInv db u rid) :
    (recipeIngNames db rid).length = (recipeIngIds db rid).length := by
  obtain ⟨hnd, _, _, r0, hf, _, ho⟩ := h
  unfold recipeIngNames
  apply length_filterMap_of_isSome
  intro iid hiid
  unfold recipeIngIds at hiid
  rw [hf] at hiid
  obtain ⟨i, hi, hii, _⟩ := ho iid hiid
  unfold ingNameOf
  rw [Option.isSome_map']
  rw [List.find?_isSome]
  exact ⟨i, hi, by simp [hii]⟩

theorem createCore_spec (db1 : DB) (u rid : Nat) (tns ins : List String) {rnew : Recipe}
    (hfind1 : findRecipe db1 rid = some rnew)
    (hrt : rnew.tags = []) (hri : rnew.ingredients = []) (hru : rnew.user = u)
    (htbl : TagTbl db1) (hitbl : IngTbl db1) :
    TagInv (getOrCreateIngs (getOrCreateTags db1 u tns rid) u ins rid) u rid ∧
    IngInv (getOrCreateIngs (getOrCreateTags db1 u tns rid) u ins rid) u rid ∧
    recipeTagNames (getOrCreateIngs (getOrCreateTags db1 u tns rid) u ins rid) rid
      = dedupFirst tns ∧
    recipeIngNames (getOrCreateIngs (getOrCreateTags db1 u tns rid) u ins rid) rid
      = dedupFirst ins := by
  obtain ⟨ht1, ht2, ht3⟩ := htbl
  obtain ⟨hi1, hi2, hi3⟩ := hitbl
  have hTI1 : TagInv db1 u rid := by
    refine ⟨ht1, ht2, ht3, rnew, hfind1, hru, ?_⟩
    intro tid htid
    rw [hrt] at htid
    cases htid
  obtain ⟨hTI2, htr⟩ := goctags_trace u rid tns db1 hTI1
  have htr' : recipeTagNames (getOrCreateTags db1 u tns rid) rid = dedupFirst tns := by
    rw [htr, recipeTagNames_eq hfind1, hrt]
    rfl
  obtain ⟨g, hgrec, hgp⟩ := getOrCreateTags_shape u rid tns db1
  have htab := getOrCreateTags_tables u rid tns db1
  have hfind2 : findRecipe (getOrCreateTags db1 u tns rid) rid = some (g rnew) := by
    rw [findRecipe_of_map hgrec (fun r => (sansTags_fields (hgp r)).1) rid, hfind1,
      Option.map_some']
  have hII2 : IngInv (getOrCreateTags db1 u tns rid) u rid := by
    refine ⟨?_, ?_, ?_, g rnew, hfind2, ?_, ?_⟩
    · rw [htab.1]
      exact hi1
    · rw [htab.1, htab.2.1]
      exact hi2
    · show IngsUniq _
      unfold IngsUniq
      rw [htab.1]
      exact hi3
    · rw [(sansTags_fields (hgp rnew)).2.1, hru]
    · intro iid hiid
      rw [(sansTags_fields (hgp rnew)).2.2.1, hri] at hiid
      cases hiid
  obtain ⟨hII3, hitr⟩ := gocings_trace u rid ins _ hII2
  have hitr' : recipeIngNames (getOrCreateIngs (getOrCreateTags db1 u tns rid) u ins rid) rid
      = dedupFirst ins := by
    rw [hitr, recipeIngNames_eq hfind2, (sansTags_fields (hgp rnew)).2.2.1, hri]
    rfl
  obtain ⟨g2, hg2rec, hg2p⟩ := getOrCreateIngs_shape u rid ins (getOrCreateTags db1 u tns rid)
  have htab2 := getOrCreateIngs_tables u rid ins (getOrCreateTags db1 u tns rid)
  have hTI3 : TagInv (getOrCreateIngs (getOrCreateTags db1 u tns rid) u ins rid) u rid :=
    tagInv_congr htab2.1 htab2.2.1 hg2rec (fun r => (sansIngs_fields (hg2p r)).1)
      (fun r => (sansIngs_fields (hg2p r)).2.2.1) (fun r => (sansIngs_fields (hg2p r)).2.1)
      hTI2
  have htr3 : recipeTagNames (getOrCreateIngs (getOrCreateTags db1 u tns rid) u ins rid) rid
      = dedupFirst tns := by
    rw [recipeTagNames_congr htab2.1 hg2rec (fun r => (sansIngs_fields (hg2p r)).1)
      (fun r => (sansIngs_fields (hg2p r)).2.2.1) rid]
    exact htr'
  exact ⟨hTI3, hII3, htr3, hitr'⟩

theorem recipeCreate_spec (db : DB) (u : Nat) (p : RecipeCreatePayload) (hwf : db.WF) :
    TagInv (recipeCreate db u p).1 u db.nextRecipeId ∧
    IngInv (recipeCreate db u p).1 u db.nextRecipeId ∧
    recipeTagNames (recipeCreate db u p).1 db.nextRecipeId = dedupFirst (p.tags.getD []) ∧
    recipeIngNames (recipeCreate db u p).1 db.nextRecipeId
      = dedupFirst (p.ingredients.getD []) := by
  obtain ⟨hrnd, htnd, hind, hrlt, htlt, hilt, htu, hiu, hto, hio⟩ := hwf
  have hfind1 : findRecipe
      { db with
          recipes := db.recipes ++
            [{ id := db.nextRecipeId, user := u, title := p.title,
               time_minutes := p.time_minutes, price := p.price, link := p.link,
               description := p.description, image := none, tags := [],
               ingredients := [] }],
          nextRecipeId := db.nextRecipeId + 1 } db.nextRecipeId
      = some { id := db.nextRecipeId, user := u, title := p.title,
               time_minutes := p.time_minutes, price := p.price, link := p.link,
               description := p.description, image := none, tags := [],
               ingredients := [] } := by
    show (db.recipes ++
        [({ id := db.nextRecipeId, user := u, title := p.title,
            time_minutes := p.time_minutes, price := p.price, link := p.link,
            description := p.description, image := none, tags := [],
            ingredients := [] } : Recipe)]).find?
        (fun r : Recipe => r.id == db.nextRecipeId) = _
    rw [List.find?_append]
    have h0 : db.recipes.find? (fun r => r.id == db.nextRecipeId) = none := by
      rw [List.find?_eq_none]
      intro x hx hbeq
      have hxid : x.id = db.nextRecipeId := by simpa using hbeq
      exact absurd (hxid ▸ hrlt x hx) (lt_irrefl _)
    rw [h0]
    simp
  have hcore := createCore_spec _ u db.nextRecipeId (p.tags.getD []) (p.ingredients.getD [])
    hfind1 rfl rfl rfl ⟨htnd, htlt, htu⟩ ⟨hind, hilt, hiu⟩
  exact ⟨hcore.1, hcore.2.1, hcore.2.2.1, hcore.2.2.2⟩

theorem recipeUpdateApply_spec (db : DB) (u rid : Nat) (p : RecipeUpdatePayload)
    {robj : Recipe} (hwf : db.WF)
    (hfind : findRecipe db rid = some robj) (huser : robj.user = u) :
    (p.tags = none → recipeTagIds (recipeUpdateApply db u rid p) rid = robj.tags) ∧
    (p.ingredients = none →
      recipeIngIds (recipeUpdateApply db u rid p) rid = robj.ingredients) ∧
    (∀ ns, p.tags = some ns →
      recipeTagNames (recipeUpdateApply db u rid p) rid = dedupFirst ns) ∧
    (∀ ns, p.ingredients = some ns →
      recipeIngNames (recipeUpdateApply db u rid p) rid = dedupFirst ns) := by
  obtain ⟨hrnd, htnd, hind, hrlt, htlt, hilt, htu, hiu, hto, hio⟩ := hwf
  have hr0beq : (robj.id == rid) = true := by
    have hfind' := hfind
    unfold findRecipe at hfind'
    have hb := List.find?_some hfind'
    simpa using hb
  have hid : ∀ r : Recipe,
      ((fun r => if r.id == rid then applyScalars p r else r) r).id = r.id := by
    intro r
    by_cases hc : (r.id == rid) = true <;> simp [hc, applyScalars]
  have htg : ∀ r : Recipe,
      ((fun r => if r.id == rid then applyScalars p r else r) r).tags = r.tags := by
    intro r
    by_cases hc : (r.id == rid) = true <;> simp [hc, applyScalars]
  have hig : ∀ r : Recipe,
      ((fun r => if r.id == rid then applyScalars p r else r) r).ingredients
        = r.ingredients := by
    intro r
    by_cases hc : (r.id == rid) = true <;> simp [hc, applyScalars]
  have happ : ∀ (dbx : DB) (k : Nat),
      recipeTagIds (dbMapRecipe dbx rid (applyScalars p)) k = recipeTagIds dbx k ∧
      recipeIngIds (dbMapRecipe dbx rid (applyScalars p)) k = recipeIngIds dbx k ∧
      recipeTagNames (dbMapRecipe dbx rid (applyScalars p)) k = recipeTagNames dbx k ∧
      recipeIngNames (dbMapRecipe dbx rid (applyScalars p)) k = recipeIngNames dbx k := by
    intro dbx k
    refine ⟨?_, ?_, ?_, ?_⟩
    · exact @recipeTagIds_congr (dbMapRecipe dbx rid (applyScalars p)) dbx
        (fun r => if r.id == rid then applyScalars p r else r) rfl hid htg k
    · exact @recipeIngIds_congr (dbMapRecipe dbx rid (applyScalars p)) dbx
        (fun r => if r.id == rid then applyScalars p r else r) rfl hid hig k
    · exact @recipeTagNames_congr (dbMapRecipe dbx rid (applyScalars p)) dbx
        (fun r => if r.id == rid then applyScalars p r else r) rfl rfl hid htg k
    · exact @recipeIngNames_congr (dbMapRecipe dbx rid (applyScalars p)) dbx
        (fun r => if r.id == rid then applyScalars p r else r) rfl rfl hid hig k
  have hclearIngFields : ∀ r : Recipe,
      ((fun r => if r.id == rid then { r with ingredients := ([] : List Nat) } else r) r).id
        = r.id ∧
      ((fun r => if r.id == rid then { r with ingredients := ([] : List Nat) } else r) r).tags
        = r.tags := by
    intro r
    by_cases hc : (r.id == rid) = true <;> simp [hc]
  have hclearTagFields : ∀ r : Recipe,
      ((fun r => if r.id == rid then { r with tags := ([] : List Nat) } else r) r).id
        = r.id ∧
      ((fun r => if r.id == rid then { r with tags := ([] : List Nat) } else r)
        r).ingredients = r.ingredients := by
    intro r
    by_cases hc : (r.id == rid) = true <;> simp [hc]
  cases hpt : p.tags with
  | none =>
    cases hpi : p.ingredients with
    | none =>
      have heq : recipeUpdateApply db u rid p = dbMapRecipe db rid (applyScalars p) := by
        unfold recipeUpdateApply
        rw [hpt, hpi]
      refine ⟨?_, ?_, ?_, ?_⟩
      · intro _
        rw [heq, (happ db rid).1]
        unfold recipeTagIds
        rw [hfind]
      · intro _
        rw [heq, (happ db rid).2.1]
        unfold recipeIngIds
        rw [hfind]
      · intro ns hns
        cases hns
      · intro ns hns
        cases hns
    | some ms =>
      have heq : recipeUpdateApply db u rid p
          = dbMapRecipe (getOrCreateIngs (dbClearIngs db rid) u ms rid) rid
              (applyScalars p) := by
        unfold recipeUpdateApply
        rw [hpt, hpi]
      have hII : IngInv (dbClearIngs db rid) u rid :=
        ingInv_clear ⟨hind, hilt, hiu⟩ hfind huser
      obtain ⟨hII2, hitr⟩ := gocings_trace u rid ms _ hII
      have hfindc : findRecipe (dbClearIngs db rid) rid
          = some { robj with ingredients := [] } := by
        unfold dbClearIngs
        rw [findRecipe_dbMapRecipe rid rid (fun r => { r with ingredients := [] })
          (fun r => rfl), hfind, Option.map_some', if_pos hr0beq]
      obtain ⟨g2, hg2rec, hg2p⟩ := getOrCreateIngs_shape u rid ms (dbClearIngs db rid)
      refine ⟨?_, ?_, ?_, ?_⟩
      · intro _
        rw [heq, (happ _ rid).1,
          recipeTagIds_congr hg2rec (fun r => (sansIngs_fields (hg2p r)).1)
            (fun r => (sansIngs_fields (hg2p r)).2.2.1) rid,
          @recipeTagIds_congr (dbClearIngs db rid) db
            (fun r => if r.id == rid then { r with ingredients := ([] : List Nat) } else r)
            rfl (fun r => (hclearIngFields r).1) (fun r => (hclearIngFields r).2) rid]
        unfold recipeTagIds
        rw [hfind]
      · intro hni
        cases hni
      · intro ns hns
        cases hns
      · intro ns hns
        cases hns
        rw [heq, (happ _ rid).2.2.2, hitr, recipeIngNames_eq hfindc]
        rfl
  | some ts =>
    have hTIc : TagInv (dbClearTags db rid) u rid :=
      tagInv_clear ⟨htnd, htlt, htu⟩ hfind huser
    obtain ⟨hTI2, httr⟩ := goctags_trace u rid ts _ hTIc
    have hfindct : findRecipe (dbClearTags db rid) rid = some { robj with tags := [] } := by
      unfold dbClearTags
      rw [findRecipe_dbMapRecipe rid rid (fun r => { r with tags := [] })
        (fun r => rfl), hfind, Option.map_some', if_pos hr0beq]
    have htagnames2 :
        recipeTagNames (getOrCreateTags (dbClearTags db rid) u ts rid) rid
          = dedupFirst ts := by
      rw [httr, recipeTagNames_eq hfindct]
      rfl
    obtain ⟨g, hgrec, hgp⟩ := getOrCreateTags_shape u rid ts (dbClearTags db rid)
    cases hpi : p.ingredients with
    | none =>
      have heq : recipeUpdateApply db u rid p
          = dbMapRecipe (getOrCreateTags (dbClearTags db rid) u ts rid) rid
              (applyScalars p) := by
        unfold recipeUpdateApply
        rw [hpt, hpi]
      refine ⟨?_, ?_, ?_, ?_⟩
      · intro hnt
        cases hnt
      · intro _
        rw [heq, (happ _ rid).2.1,
          recipeIngIds_congr hgrec (fun r => (sansTags_fields (hgp r)).1)
            (fun r => (sansTags_fields (hgp r)).2.2.1) rid,
          @recipeIngIds_congr (dbClearTags db rid) db
            (fun r => if r.id == rid then { r with tags := ([] : List Nat) } else r)
            rfl (fun r => (hclearTagFields r).1) (fun r => (hclearTagFields r).2) rid]
        unfold recipeIngIds
        rw [hfind]
      · intro ns hns
        cases hns
        rw [heq, (happ _ rid).2.2.1]
        exact htagnames2
      · intro ns hns
        cases hns
    | some ms =>
      have heq : recipeUpdateApply db u rid p
          = dbMapRecipe
              (getOrCreateIngs
                (dbClearIngs (getOrCreateTags (dbClearTags db rid) u ts rid) rid) u ms rid)
              rid (applyScalars p) := by
        unfold recipeUpdateApply
        rw [hpt, hpi]
      obtain ⟨hTI2a, hTI2b, hTI2c, rT, hfindT, huT, hoT⟩ := hTI2
      have hiTblT : IngTbl (getOrCreateTags (dbClearTags db rid) u ts rid) := by
        have htab := getOrCreateTags_tables u rid ts (dbClearTags db rid)
        exact ingTbl_congr htab.1 htab.2.1 ⟨hind, hilt, hiu⟩
      have hII : IngInv (dbClearIngs (getOrCreateTags (dbClearTags db rid) u ts rid) rid)
          u rid := ingInv_clear hiTblT hfindT huT
      obtain ⟨hII2, hitr⟩ := gocings_trace u rid ms _ hII
      have hrTbeq : (rT.id == rid) = true := by
        have hfindT' := hfindT
        unfold findRecipe at hfindT'
        have hb := List.find?_some hfindT'
        simpa using hb
      have hfindc2 : findRecipe
          (dbClearIngs (getOrCreateTags (dbClearTags db rid) u ts rid) rid) rid
          = some { rT with ingredients := [] } := by
        unfold dbClearIngs
        rw [findRecipe_dbMapRecipe rid rid (fun r => { r with ingredients := [] })
          (fun r => rfl), hfindT, Option.map_some', if_pos hrTbeq]
      obtain ⟨g2, hg2rec, hg2p⟩ := getOrCreateIngs_shape u rid ms
        (dbClearIngs (getOrCreateTags (dbClearTags db rid) u ts rid) rid)
      have htab2 := getOrCreateIngs_tables u rid ms
        (dbClearIngs (getOrCreateTags (dbClearTags db rid) u ts rid) rid)
      refine ⟨?_, ?_, ?_, ?_⟩
      · intro hnt
        cases hnt
      · intro hni
        cases hni
      · intro ns hns
        cases hns
        rw [heq, (happ _ rid).2.2.1,
          recipeTagNames_congr htab2.1 hg2rec (fun r => (sansIngs_fields (hg2p r)).1)
            (fun r => (sansIngs_fields (hg2p r)).2.2.1) rid,
          @recipeTagNames_congr
            (dbClearIngs (getOrCreateTags (dbClearTags db rid) u ts rid) rid)
            (getOrCreateTags (dbClearTags db rid) u ts rid)
            (fun r => if r.id == rid then { r with ingredients := ([] : List Nat) } else r)
            rfl rfl (fun r => (hclearIngFields r).1) (fun r => (hclearIngFields r).2) rid]
        exact htagnames2
      · intro ns hns
        cases hns
        rw [heq, (happ _ rid).2.2.2, hitr, recipeIngNames_eq hfindc2]
        rfl

theorem recipeUpdateApply_idUser (db : DB) (u rid : Nat) (p : RecipeUpdatePayload) :
    (recipeUpdateApply db u rid p).recipes.map idUser = db.recipes.map idUser := by
  have happ : ∀ (dbx : DB),
      (dbMapRecipe dbx rid (applyScalars p)).recipes.map idUser
        = dbx.recipes.map idUser :=
    fun dbx => idUser_map_dbMapRecipe dbx rid _ (fun _ => rfl)
  have hct : ∀ (dbx : DB),
      (dbClearTags dbx rid).recipes.map idUser = dbx.recipes.map idUser :=
    fun dbx => idUser_map_dbMapRecipe dbx rid _ (fun _ => rfl)
  have hci : ∀ (dbx : DB),
      (dbClearIngs dbx rid).recipes.map idUser = dbx.recipes.map idUser :=
    fun dbx => idUser_map_dbMapRecipe dbx rid _ (fun _ => rfl)
  cases hpt : p.tags with
  | none =>
    cases hpi : p.ingredients with
    | none =>
      have heq : recipeUpdateApply db u rid p = dbMapRecipe db rid (applyScalars p) := by
        unfold recipeUpdateApply
        rw [hpt, hpi]
      rw [heq, happ]
    | some ms =>
      have heq : recipeUpdateApply db u rid p
          = dbMapRecipe (getOrCreateIngs (dbClearIngs db rid) u ms rid) rid
              (applyScalars p) := by
        unfold recipeUpdateApply
        rw [hpt, hpi]
      rw [heq, happ, gocings_idUser, hci]
  | some ts =>
    cases hpi : p.ingredients with
    | none =>
      have heq : recipeUpdateApply db u rid p
          = dbMapRecipe (getOrCreateTags (dbClearTags db rid) u ts rid) rid
              (applyScalars p) := by
        unfold recipeUpdateApply
        rw [hpt, hpi]
      rw [heq, happ, goctags_idUser, hct]
    | some ms =>
      have heq : recipeUpdateApply db u rid p
          = dbMapRecipe
              (getOrCreateIngs
                (dbClearIngs (getOrCreateTags (dbClearTags db rid) u ts rid) rid) u ms rid)
              rid (applyScalars p) := by
        unfold recipeUpdateApply
        rw [hpt, hpi]
      rw [heq, happ, gocings_idUser, hci, goctags_idUser, hct]

theorem recipeUpdateApply_tbl (db : DB) (u rid : Nat) (p : RecipeUpdatePayload)
    (ht : TagTbl db) (hi : IngTbl db) :
    TagTbl (recipeUpdateApply db u rid p) ∧ IngTbl (recipeUpdateApply db u rid p) := by
  cases hpt : p.tags with
  | none =>
    cases hpi : p.ingredients with
    | none =>
      have heq : recipeUpdateApply db u rid p = dbMapRecipe db rid (applyScalars p) := by
        unfold recipeUpdateApply
        rw [hpt, hpi]
      rw [heq]
      exact ⟨ht, hi⟩
    | some ms =>
      have heq : recipeUpdateApply db u rid p
          = dbMapRecipe (getOrCreateIngs (dbClearIngs db rid) u ms rid) rid
              (applyScalars p) := by
        unfold recipeUpdateApply
        rw [hpt, hpi]
      rw [heq]
      have htab := getOrCreateIngs_tables u rid ms (dbClearIngs db rid)
      exact ⟨tagTbl_congr htab.1 htab.2.1 ht, getOrCreateIngs_tbl u rid ms _ hi⟩
  | some ts =>
    have httag : TagTbl (getOrCreateTags (dbClearTags db rid) u ts rid) :=
      getOrCreateTags_tbl u rid ts _ ht
    have htab := getOrCreateTags_tables u rid ts (dbClearTags db rid)
    have hiT : IngTbl (getOrCreateTags (dbClearTags db rid) u ts rid) :=
      ingTbl_congr htab.1 htab.2.1 hi
    cases hpi : p.ingredients with
    | none =>
      have heq : recipeUpdateApply db u rid p
          = dbMapRecipe (getOrCreateTags (dbClearTags db rid) u ts rid) rid
              (applyScalars p) := by
        unfold recipeUpdateApply
        rw [hpt, hpi]
      rw [heq]
      exact ⟨httag, hiT⟩
    | some ms =>
      have heq : recipeUpdateApply db u rid p
          = dbMapRecipe
              (getOrCreateIngs
                (dbClearIngs (getOrCreateTags (dbClearTags db rid) u ts rid) rid) u ms rid)
              rid (applyScalars p) := by
        unfold recipeUpdateApply
        rw [hpt, hpi]
      rw [heq]
      have htab2 := getOrCreateIngs_tables u rid ms
        (dbClearIngs (getOrCreateTags (dbClearTags db rid) u ts rid) rid)
      exact ⟨tagTbl_congr htab2.1 htab2.2.1 httag, getOrCreateIngs_tbl u rid ms _ hiT⟩

theorem getOrCreateTag_reuse {db : DB} {u : Nat} {t : Tag}
    (huniq : TagsUniq db) (ht : t ∈ db.tags) (hu : t.user = u) :
    getOrCreateTag db u t.name = (db, t.id) := by
  cases hf : db.tags.find? (fun x => x.user == u && x.name == t.name) with
  | none =>
    exfalso
    have hc := List.find?_eq_none.mp hf t ht
    simp [hu] at hc
  | some t' =>
    have ht'eq := List.find?_some hf
    simp only [Bool.and_eq_true, beq_iff_eq] at ht'eq
    have ht'mem := List.mem_of_find?_eq_some hf
    have heq : t' = t := huniq t' ht'mem t ht (ht'eq.1.trans hu.symm) ht'eq.2
    unfold getOrCreateTag
    rw [hf, heq]

theorem getOrCreateIng_reuse {db : DB} {u : Nat} {i : Ingredient}
    (huniq : IngsUniq db) (hi : i ∈ db.ingredients) (hu : i.user = u) :
    getOrCreateIng db u i.name = (db, i.id) := by
  cases hf : db.ingredients.find? (fun x => x.user == u && x.name == i.name) with
  | none =>
    exfalso
    have hc := List.find?_eq_none.mp hf i hi
    simp [hu] at hc
  | some i' =>
    have hi'eq := List.find?_some hf
    simp only [Bool.and_eq_true, beq_iff_eq] at hi'eq
    have hi'mem := List.mem_of_find?_eq_some hf
    have heq : i' = i := huniq i' hi'mem i hi (hi'eq.1.trans hu.symm) hi'eq.2
    unfold getOrCreateIng
    rw [hf, heq]

theorem getOrCreateTag_owner (db : DB) (u : Nat) (n : String) :
    ∃ t ∈ (getOrCreateTag db u n).1.tags,
      t.id = (getOrCreateTag db u n).2 ∧ t.user = u ∧ t.name = n := by
  cases hf : db.tags.find? (fun x => x.user == u && x.name == n) with
  | some t =>
    have hteq := List.find?_some hf
    simp only [Bool.and_eq_true, beq_iff_eq] at hteq
    have htmem := List.mem_of_find?_eq_some hf
    have hgoc : getOrCreateTag db u n = (db, t.id) := by
      unfold getOrCreateTag
      rw [hf]
    rw [hgoc]
    exact ⟨t, htmem, rfl, hteq.1, hteq.2⟩
  | none =>
    have hgoc : getOrCreateTag db u n
        = ({ db with
              tags := db.tags ++ [⟨db.nextTagId, u, n⟩],
              nextTagId := db.nextTagId + 1 }, db.nextTagId) := by
      unfold getOrCreateTag
      rw [hf]
    rw [hgoc]
    exact ⟨⟨db.nextTagId, u, n⟩,
      List.mem_append_right _ (List.mem_singleton_self _), rfl, rfl, rfl⟩

theorem uploadImage_found_invalid {db : DB} {u pk : Nat} {r : Recipe}
    {file : Option UploadedFile}
    (h : recipeGetObject db u pk = some r)
    (hbad : ∀ f, file = some f → f.decodable = false) :
    uploadImage db u pk file = (.badRequest, db) := by
  unfold uploadImage
  rw [h]
  cases file with
  | none => rfl
  | some f =>
    have hf := hbad f rfl
    simp [hf]

theorem uploadImage_found_valid {db : DB} {u pk : Nat} {r : Recipe} {f : UploadedFile}
    (h : recipeGetObject db u pk = some r) (hok : f.decodable = true) :
    uploadImage db u pk (some f)
      = (.ok, dbMapRecipe db pk (fun r => { r with image := some f.content })) := by
  unfold uploadImage
  rw [h]
  simp [hok]

/-- Claim C1: for distinct users U1 and U2, entities owned by U1 never appear
in U2's list, detail or filtered responses, and every attempt by U2 to
retrieve, update or delete a U1-owned recipe, tag or ingredient answers 404
(never 403) and leaves the stored state unchanged. -/
theorem C1_user_isolation (db : DB) (u1 u2 : Nat) (hwf : db.WF) (hne : u1 ≠ u2) :
    (∀ r ∈ db.recipes, r.user = u1 →
      (∀ tIds iIds, ∀ r' ∈ recipeListQS db u2 tIds iIds, r'.id ≠ r.id) ∧
      recipeRetrieve db u2 r.id = (Http.notFound, none) ∧
      (∀ p, recipeUpdate db u2 r.id p = (Http.notFound, db)) ∧
      recipeDestroy db u2 r.id = (Http.notFound, db) ∧
      (∀ file, uploadImage db u2 r.id file = (Http.notFound, db))) ∧
    (∀ t ∈ db.tags, t.user = u1 →
      (∀ b, ∀ t' ∈ tagListQS db u2 b, t'.id ≠ t.id) ∧
      (∀ n, tagUpdate db u2 t.id n = (Http.notFound, db)) ∧
      tagDestroy db u2 t.id = (Http.notFound, db)) ∧
    (∀ i ∈ db.ingredients, i.user = u1 →
      (∀ b, ∀ i' ∈ ingListQS db u2 b, i'.id ≠ i.id) ∧
      (∀ n, ingUpdate db u2 i.id n = (Http.notFound, db)) ∧
      ingDestroy db u2 i.id = (Http.notFound, db)) := by
  obtain ⟨hrnd, htnd, hind, _, _, _, _, _, _, _⟩ := hwf
  refine ⟨?_, ?_, ?_⟩
  · intro r hr hu1
    have hru2 : r.user ≠ u2 := by
      rw [hu1]
      exact hne
    have hnone := recipeGetObject_none_of_other hrnd hr hru2
    refine ⟨?_, recipeRetrieve_notFound hnone, fun p => recipeUpdate_notFound hnone,
      recipeDestroy_notFound hnone, fun file => uploadImage_notFound hnone⟩
    intro tIds iIds r' hr' heq
    have hm := mem_recipeListQS.mp hr'
    have : r' = r := List.inj_on_of_nodup_map hrnd hm.1 hr heq
    exact hru2 (this ▸ hm.2.1)
  · intro t ht hu1
    have htu2 : t.user ≠ u2 := by
      rw [hu1]
      exact hne
    have hnone := tagGetObject_none_of_other htnd ht htu2
    refine ⟨?_, fun n => tagUpdate_notFound hnone, tagDestroy_notFound hnone⟩
    intro b t' ht' heq
    have hm := mem_tagListQS.mp ht'
    have : t' = t := List.inj_on_of_nodup_map htnd hm.1 ht heq
    exact htu2 (this ▸ hm.2.1)
  · intro i hi hu1
    have hiu2 : i.user ≠ u2 := by
      rw [hu1]
      exact hne
    have hnone := ingGetObject_none_of_other hind hi hiu2
    refine ⟨?_, fun n => ingUpdate_notFound hnone, ingDestroy_notFound hnone⟩
    intro b i' hi' heq
    have hm := mem_ingListQS.mp hi'
    have : i' = i := List.inj_on_of_nodup_map hind hm.1 hi heq
    exact hiu2 (this ▸ hm.2.1)

/-- Witness for C1 at a concrete two-user state: user 1 gets 404 on user 2's
recipe 3 and tag 3, with the state unchanged. -/
theorem C1_user_isolation_witness :
    recipeRetrieve sampleDB 1 3 = (Http.notFound, none) ∧
    recipeDestroy sampleDB 1 3 = (Http.notFound, sampleDB) ∧
    tagUpdate sampleDB 1 3 "X" = (Http.notFound, sampleDB) := by
  have h := C1_user_isolation sampleDB 2 1 (by decide) (by decide)
  have hr := h.1
    { id := 3, user := 2, title := "Pie", time_minutes := 20, price := 4,
      link := "", description := "", image := none, tags := [3], ingredients := [2] }
    (by decide) rfl
  have ht := h.2.1 ⟨3, 2, "Vegan"⟩ (by decide) rfl
  exact ⟨hr.2.1, hr.2.2.2.1, ht.2.1 "X"⟩

/-- Claim C5: a recipe update never changes any recipe's id or owner, for
every raw client payload (including ones naming user or id, which validation
silently drops), and the request never fails on such a payload. -/
theorem C5_owner_immutable (db : DB) (u rid : Nat) (raw : RawUpdatePayload) :
    (recipeUpdateRaw db u rid raw).2.recipes.map idUser = db.recipes.map idUser ∧
    ((recipeUpdateRaw db u rid raw).1 = Http.ok ∨
      (recipeUpdateRaw db u rid raw).1 = Http.notFound) := by
  unfold recipeUpdateRaw recipeUpdate
  cases hobj : recipeGetObject db u rid with
  | none => exact ⟨rfl, Or.inr rfl⟩
  | some r => exact ⟨recipeUpdateApply_idUser db u rid _, Or.inl rfl⟩

/-- Claim C6: the recipe list contains exactly the requesting user's recipes
matching the optional tag/ingredient id filters (OR within a filter, AND
across the two), each exactly once, ordered by descending id. -/
theorem C6_recipe_list (db : DB) (u : Nat) (tIds iIds : Option (List Int)) (hwf : db.WF) :
    (∀ r : Recipe, r ∈ recipeListQS db u tIds iIds ↔
      r ∈ db.recipes ∧ r.user = u ∧
      (∀ l, tIds = some l → ∃ tid : Nat, tid ∈ r.tags ∧ (tid : Int) ∈ l) ∧
      (∀ l, iIds = some l → ∃ iid : Nat, iid ∈ r.ingredients ∧ (iid : Int) ∈ l)) ∧
    ((recipeListQS db u tIds iIds).map Recipe.id).Nodup ∧
    (recipeListQS db u tIds iIds).Sorted recGE :=
  ⟨fun _ => mem_recipeListQS, nodup_recipeListQS hwf.1 u tIds iIds,
    sorted_recipeListQS db u tIds iIds⟩

/-- Witness for C6: filtering user 1's recipes by tag ids 1 and 2 returns
recipes 2 and 1 (recipe 2 linked to both appears once), descending. -/
theorem C6_recipe_list_witness :
    (recipeListQS sampleDB 1 (some [1, 2]) none).map Recipe.id = [2, 1] ∧
    ((recipeListQS sampleDB 1 (some [1, 2]) none).map Recipe.id).Nodup ∧
    (recipeListQS sampleDB 1 (some [1, 2]) none).Sorted recGE := by
  have h := C6_recipe_list sampleDB 1 (some [1, 2]) none (by decide)
  exact ⟨by decide, h.2.1, h.2.2⟩

/-- Claim C7: tag and ingredient lists are scoped to the requesting user,
ordered by descending name, and with `assigned_only` restrict to rows with
at least one recipe relation, each row exactly once. -/
theorem C7_attr_list (db : DB) (u : Nat) (b : Bool) (hwf : db.WF) :
    (∀ t : Tag, t ∈ tagListQS db u b ↔
      t ∈ db.tags ∧ t.user = u ∧ (b = true → ∃ r ∈ db.recipes, t.id ∈ r.tags)) ∧
    ((tagListQS db u b).map Tag.id).Nodup ∧
    (tagListQS db u b).Sorted tagGE ∧
    (∀ i : Ingredient, i ∈ ingListQS db u b ↔
      i ∈ db.ingredients ∧ i.user = u ∧
        (b = true → ∃ r ∈ db.recipes, i.id ∈ r.ingredients)) ∧
    ((ingListQS db u b).map Ingredient.id).Nodup ∧
    (ingListQS db u b).Sorted ingGE :=
  ⟨fun _ => mem_tagListQS, nodup_tagListQS hwf.2.1 u b, sorted_tagListQS db u b,
    fun _ => mem_ingListQS, nodup_ingListQS hwf.2.2.1 u b, sorted_ingListQS db u b⟩

/-- Witness for C7: with `assigned_only`, tag 1 (attached to two recipes of
user 1) appears exactly once. -/
theorem C7_attr_list_witness :
    (tagListQS sampleDB 1 true).map Tag.id = [1, 2] ∧
    ((tagListQS sampleDB 1 true).map Tag.id).Nodup := by
  have h := C7_attr_list sampleDB 1 true (by decide)
  exact ⟨by decide, h.2.1⟩

/-- Counterexample to claim C2 as stated: starting from an empty state, user
1 creates a recipe with fresh tags A (id 1) and B (id 2); the per-(owner,
name) uniqueness invariant holds, yet renaming tag 2 to A through the tag
update endpoint succeeds (200) and leaves two tag rows with owner 1 and name
A — the update endpoints do not preserve the uniqueness invariant. -/
theorem C2_counterexample :
    TagsUniq (recipeCreate emptyDB 1 payloadAB).1 ∧
    (tagUpdate (recipeCreate emptyDB 1 payloadAB).1 1 2 "A").1 = Http.ok ∧
    ¬ TagsUniq (tagUpdate (recipeCreate emptyDB 1 payloadAB).1 1 2 "A").2 := by
  refine ⟨by decide, by decide, by decide⟩

/-- Claim C2 (amended): per-(owner, name) uniqueness of tag and ingredient
rows is preserved by recipe create and recipe update (the get-or-create
paths); a same-named request by the same user reuses the existing row with
no state change, and get-or-create for another user resolves to a row owned
by that user — but renames through the tag/ingredient update endpoints may
break the invariant (see the counterexample). -/
theorem C2_uniqueness_amended (db : DB) (u rid u2 : Nat) (p : RecipeCreatePayload)
    (q : RecipeUpdatePayload) (n : String) (hwf : db.WF) :
    (TagsUniq (recipeCreate db u p).1 ∧ IngsUniq (recipeCreate db u p).1) ∧
    (TagsUniq (recipeUpdate db u rid q).2 ∧ IngsUniq (recipeUpdate db u rid q).2) ∧
    (∀ t ∈ db.tags, t.user = u → getOrCreateTag db u t.name = (db, t.id)) ∧
    (∀ i ∈ db.ingredients, i.user = u → getOrCreateIng db u i.name = (db, i.id)) ∧
    (∃ t ∈ (getOrCreateTag db u2 n).1.tags,
      t.id = (getOrCreateTag db u2 n).2 ∧ t.user = u2 ∧ t.name = n) := by
  obtain ⟨hrnd, htnd, hind, hrlt, htlt, hilt, htu, hiu, hto, hio⟩ := hwf
  refine ⟨⟨?_, ?_⟩, ?_, fun t ht hu => getOrCreateTag_reuse htu ht hu,
    fun i hi hu => getOrCreateIng_reuse hiu hi hu, getOrCreateTag_owner db u2 n⟩
  · have hg := getOrCreateIngs_tables u db.nextRecipeId (p.ingredients.getD [])
      (getOrCreateTags
        { db with
            recipes := db.recipes ++
              [{ id := db.nextRecipeId, user := u, title := p.title,
                 time_minutes := p.time_minutes, price := p.price, link := p.link,
                 description := p.description, image := none, tags := [],
                 ingredients := [] }],
            nextRecipeId := db.nextRecipeId + 1 }
        u (p.tags.getD []) db.nextRecipeId)
    exact (tagTbl_congr hg.1 hg.2.1
      (getOrCreateTags_tbl u db.nextRecipeId (p.tags.getD []) _ ⟨htnd, htlt, htu⟩)).2.2
  · have hi2 : IngTbl (getOrCreateTags
        { db with
            recipes := db.recipes ++
              [{ id := db.nextRecipeId, user := u, title := p.title,
                 time_minutes := p.time_minutes, price := p.price, link := p.link,
                 description := p.description, image := none, tags := [],
                 ingredients := [] }],
            nextRecipeId := db.nextRecipeId + 1 }
        u (p.tags.getD []) db.nextRecipeId) := by
      have hg := getOrCreateTags_tables u db.nextRecipeId (p.tags.getD [])
        { db with
            recipes := db.recipes ++
              [{ id := db.nextRecipeId, user := u, title := p.title,
                 time_minutes := p.time_minutes, price := p.price, link := p.link,
                 description := p.description, image := none, tags := [],
                 ingredients := [] }],
            nextRecipeId := db.nextRecipeId + 1 }
      exact ingTbl_congr hg.1 hg.2.1 ⟨hind, hilt, hiu⟩
    exact (getOrCreateIngs_tbl u db.nextRecipeId (p.ingredients.getD []) _ hi2).2.2
  · cases hobj : recipeGetObject db u rid with
    | none =>
      rw [recipeUpdate_notFound hobj]
      exact ⟨htu, hiu⟩
    | some r =>
      rw [recipeUpdate_found hobj]
      have h := recipeUpdateApply_tbl db u rid q ⟨htnd, htlt, htu⟩ ⟨hind, hilt, hiu⟩
      exact ⟨h.1.2.2, h.2.2.2⟩

/-- Witness for the amended C2 at a concrete state: creating a recipe with
tags A and B keeps tag uniqueness, and a same-user get-or-create of the
existing tag Vegan returns the existing row 1 with the state unchanged. -/
theorem C2_uniqueness_amended_witness :
    TagsUniq (recipeCreate sampleDB 1 payloadAB).1 ∧
    getOrCreateTag sampleDB 1 "Vegan" = (sampleDB, 1) := by
  have h := C2_uniqueness_amended sampleDB 1 1 2 payloadAB
    ⟨none, none, none, none, none, none, none⟩ "X" (by decide)
  refine ⟨h.1.1, ?_⟩
  exact h.2.2.1 ⟨1, 1, "Vegan"⟩ (by decide) rfl

/-- Claim C3: on update of an owned recipe, a present `tags` key (empty
included) clears the tag relations and re-runs get-or-create-and-attach on
the new list, an absent key leaves them untouched, and the identical policy
holds independently for `ingredients`. -/
theorem C3_update_relations (db : DB) (u rid : Nat) (p : RecipeUpdatePayload)
    {robj : Recipe} (hwf : db.WF) (hobj : recipeGetObject db u rid = some robj) :
    (recipeUpdate db u rid p).1 = Http.ok ∧
    (p.tags = none → recipeTagIds (recipeUpdate db u rid p).2 rid = robj.tags) ∧
    (p.ingredients = none →
      recipeIngIds (recipeUpdate db u rid p).2 rid = robj.ingredients) ∧
    (∀ ns, p.tags = some ns →
      recipeTagNames (recipeUpdate db u rid p).2 rid = dedupFirst ns) ∧
    (∀ ns, p.ingredients = some ns →
      recipeIngNames (recipeUpdate db u rid p).2 rid = dedupFirst ns) := by
  obtain ⟨hmem, huser, hid⟩ := recipeGetObject_some hobj
  have hfind : findRecipe db rid = some robj := by
    have h := findRecipe_of_mem hwf.1 hmem
    rw [hid] at h
    exact h
  have hspec := recipeUpdateApply_spec db u rid p hwf hfind huser
  rw [recipeUpdate_found hobj]
  exact ⟨rfl, hspec.1, hspec.2.1, hspec.2.2.1, hspec.2.2.2⟩

/-- Witness for C3: updating recipe 1 of user 1 with `tags: []` and no
`ingredients` key clears the tag relations and leaves the ingredient
relation [1] unchanged. -/
theorem C3_update_relations_witness :
    recipeTagNames (recipeUpdate sampleDB 1 1
      ⟨none, none, none, none, none, some [], none⟩).2 1 = dedupFirst [] ∧
    recipeIngIds (recipeUpdate sampleDB 1 1
      ⟨none, none, none, none, none, some [], none⟩).2 1 = [1] := by
  have h := @C3_update_relations sampleDB 1 1 ⟨none, none, none, none, none, some [], none⟩
    { id := 1, user := 1, title := "Curry", time_minutes := 30, price := 5,
      link := "", description := "", image := none, tags := [1], ingredients := [1] }
    (by decide) (by decide)
  exact ⟨h.2.2.2.1 [] rfl, h.2.2.1 rfl⟩

/-- Claim C4: on recipe create, duplicate names in the tags (or ingredients)
payload collapse to one relation each, the relation sets are populated in
order of first appearance, and the relation count equals the count of
distinct names. -/
theorem C4_create_dedup (db : DB) (u : Nat) (p : RecipeCreatePayload) (hwf : db.WF) :
    recipeTagNames (recipeCreate db u p).1 (recipeCreate db u p).2
      = dedupFirst (p.tags.getD []) ∧
    recipeIngNames (recipeCreate db u p).1 (recipeCreate db u p).2
      = dedupFirst (p.ingredients.getD []) ∧
    (recipeTagIds (recipeCreate db u p).1 (recipeCreate db u p).2).length
      = (dedupFirst (p.tags.getD [])).length ∧
    (recipeIngIds (recipeCreate db u p).1 (recipeCreate db u p).2).length
      = (dedupFirst (p.ingredients.getD [])).length := by
  have h := recipeCreate_spec db u p hwf
  refine ⟨h.2.2.1, h.2.2.2, ?_, ?_⟩
  · rw [← h.2.2.1]
    exact (tagIds_length_of_inv h.1).symm
  · rw [← h.2.2.2]
    exact (ingIds_length_of_inv h.2.1).symm

/-- Witness for C4: creating a recipe with tags [Thai, Thai] yields exactly
one tag relation, named Thai. -/
theorem C4_create_dedup_witness :
    recipeTagNames (recipeCreate emptyDB 1
        (⟨"T", 1, 1, "", "", some ["Thai", "Thai"], none⟩ : RecipeCreatePayload)).1
      (recipeCreate emptyDB 1
        (⟨"T", 1, 1, "", "", some ["Thai", "Thai"], none⟩ : RecipeCreatePayload)).2
      = ["Thai"] ∧
    (recipeTagIds (recipeCreate emptyDB 1
        (⟨"T", 1, 1, "", "", some ["Thai", "Thai"], none⟩ : RecipeCreatePayload)).1
      (recipeCreate emptyDB 1
        (⟨"T", 1, 1, "", "", some ["Thai", "Thai"], none⟩ : RecipeCreatePayload)).2).length
      = 1 := by
  have h := C4_create_dedup emptyDB 1
    (⟨"T", 1, 1, "", "", some ["Thai", "Thai"], none⟩ : RecipeCreatePayload) (by decide)
  refine ⟨?_, ?_⟩
  · rw [h.1]
    decide
  · rw [h.2.2.1]
    decide

/-- Claim C8: an image upload on an owned recipe with a missing or
non-decodable payload answers 400 and leaves the state (hence the prior
image reference) unchanged; a decodable payload answers 200, records the new
reference on the recipe superseding any prior image, and touches no other
recipe. -/
theorem C8_upload_image (db : DB) (u pk : Nat) {r : Recipe} (hwf : db.WF)
    (hobj : recipeGetObject db u pk = some r) :
    (∀ file : Option UploadedFile, (∀ f, file = some f → f.decodable = false) →
      uploadImage db u pk file = (Http.badRequest, db)) ∧
    (∀ f : UploadedFile, f.decodable = true →
      (uploadImage db u pk (some f)).1 = Http.ok ∧
      recipeImage (uploadImage db u pk (some f)).2 pk = some f.content ∧
      (∀ k, k ≠ pk → findRecipe (uploadImage db u pk (some f)).2 k = findRecipe db k)) := by
  obtain ⟨hmem, huser, hid⟩ := recipeGetObject_some hobj
  have hfind : findRecipe db pk = some r := by
    have h := findRecipe_of_mem hwf.1 hmem
    rw [hid] at h
    exact h
  have hbeq : (r.id == pk) = true := by
    simp [hid]
  refine ⟨fun file hbad => uploadImage_found_invalid hobj hbad, fun f hok => ?_⟩
  rw [uploadImage_found_valid hobj hok]
  refine ⟨rfl, ?_, ?_⟩
  · unfold recipeImage
    rw [findRecipe_dbMapRecipe pk pk (fun r => { r with image := some f.content })
      (fun _ => rfl), hfind, Option.map_some', if_pos hbeq]
  · intro k hk
    rw [findRecipe_dbMapRecipe pk k (fun r => { r with image := some f.content })
      (fun _ => rfl)]
    cases hfk : findRecipe db k with
    | none => rfl
    | some r' =>
      have hr'id : (r'.id == k) = true := by
        have hfk' := hfk
        unfold findRecipe at hfk'
        have hb := List.find?_some hfk'
        simpa using hb
      have : (r'.id == pk) = false := by
        rw [beq_eq_false_iff_ne]
        intro hc
        rw [beq_iff_eq] at hr'id
        exact hk (hr'id.symm.trans hc)
      rw [Option.map_some', if_neg (by simp [this])]

/-- Witness for C8: on recipe 1 of user 1, a missing file yields 400 with
the state unchanged, and a decodable file stores its reference. -/
theorem C8_upload_image_witness :
    uploadImage sampleDB 1 1 none = (Http.badRequest, sampleDB) ∧
    recipeImage (uploadImage sampleDB 1 1 (some ⟨"pic", true⟩)).2 1 = some "pic" := by
  have h := @C8_upload_image sampleDB 1 1
    { id := 1, user := 1, title := "Curry", time_minutes := 30, price := 5,
      link := "", description := "", image := none, tags := [1], ingredients := [1] }
    (by decide) (by decide)
  exact ⟨h.1 none (fun f hf => by cases hf), (h.2 ⟨"pic", true⟩ rfl).2.1⟩

/-- Counterexample to claim C9 as stated: a malformed `tags` value makes the
list endpoint raise an unhandled `ValueError` (a server error), not a 400
validation response, and an `assigned_only` value other than 0 or 1 is
accepted as truthy rather than rejected. -/
theorem C9_counterexample :
    recipeListResp sampleDB 1 (some "abc") none = ListResp.raised ∧
    recipeListResp sampleDB 1 (some "abc") none ≠ ListResp.badRequest ∧
    tagListResp sampleDB 1 (some "2") = ListResp.ok (tagListQS sampleDB 1 true) := by
  refine ⟨by decide, by decide, by decide⟩

/-- Claim C9 (amended): a `tags` or `ingredients` value on which `int`
parsing fails propagates as an unhandled exception (server error, not 400);
`assigned_only` accepts any integer string, treating nonzero as true; list
requests never mutate state (the endpoints are read-only in this model). -/
theorem C9_params_amended (db : DB) (u : Nat) (s : String) (hne : s ≠ "")
    (herr : paramsToInits s = Except.error ()) :
    recipeListResp db u (some s) none = ListResp.raised ∧
    recipeListResp db u none (some s) = ListResp.raised ∧
    (∀ s' n, pyInt s' = Except.ok n →
      tagListResp db u (some s') = ListResp.ok (tagListQS db u (n != 0)) ∧
      ingListResp db u (some s') = ListResp.ok (ingListQS db u (n != 0))) := by
  have hp2 : parseIdsParam (some s) = Except.error () := by
    show (if s = "" then Except.ok none else Except.map some (paramsToInits s))
      = Except.error ()
    rw [if_neg hne, herr]
    rfl
  refine ⟨?_, ?_, ?_⟩
  · unfold recipeListResp
    rw [hp2]
  · unfold recipeListResp
    rw [hp2]
    rfl
  · intro s' n hok
    have hp : parseAssignedOnly (some s') = Except.ok (n != 0) := by
      show Except.map (fun n => n != 0) (pyInt s') = Except.ok (n != 0)
      rw [hok]
      rfl
    constructor
    · unfold tagListResp
      rw [hp]
    · unfold ingListResp
      rw [hp]

/-- Witness for the amended C9: `tags=abc` raises; `assigned_only=2` is a
200 with the assigned filter on. -/
theorem C9_params_amended_witness :
    recipeListResp emptyDB 1 (some "abc") none = ListResp.raised ∧
    tagListResp emptyDB 1 (some "2") = ListResp.ok (tagListQS emptyDB 1 true) := by
  have h := C9_params_amended emptyDB 1 "abc" (by decide) (by decide)
  refine ⟨h.1, ?_⟩
  exact (h.2.2 "2" 2 (by decide)).1

/-- Claim C10: the list action renders a recipe without `description` (the
summary fields), the retrieve/create/update actions render the summary
fields plus `description`, and the rendered key set depends only on the
action, never on the recipe. -/
theorem C10_serializer_fields :
    (∀ r : Recipe, (renderRecipe ViewAction.list r).map Prod.fst
      = ["id", "title", "time_minutes", "price", "link", "tags", "ingredients"]) ∧
    (∀ a : ViewAction, a = ViewAction.retrieve ∨ a = ViewAction.create ∨
        a = ViewAction.update →
      ∀ r : Recipe, (renderRecipe a r).map Prod.fst
        = ["id", "title", "time_minutes", "price", "link", "tags", "ingredients",
           "description"]) ∧
    (∀ (a : ViewAction) (r r' : Recipe),
      (renderRecipe a r).map Prod.fst = (renderRecipe a r').map Prod.fst) ∧
    "description" ∉ serializerFieldsFor ViewAction.list := by
  have hkeys : ∀ (a : ViewAction) (r : Recipe),
      (renderRecipe a r).map Prod.fst = serializerFieldsFor a := by
    intro a r
    unfold renderRecipe
    rw [List.map_map]
    exact List.map_id _
  refine ⟨?_, ?_, ?_, by decide⟩
  · intro r
    rw [hkeys]
    rfl
  · intro a ha r
    rcases ha with rfl | rfl | rfl <;>
      · rw [hkeys]
        rfl
  · intro a r r'
    rw [hkeys, hkeys]

/-- Witness for C10 at a concrete recipe: retrieve renders the detail keys. -/
theorem C10_serializer_fields_witness :
    (renderRecipe ViewAction.retrieve
      { id := 1, user := 1, title := "Curry", time_minutes := 30, price := 5,
        link := "", description := "", image := none, tags := [1],
        ingredients := [1] }).map Prod.fst
      = ["id", "title", "time_minutes", "price", "link", "tags", "ingredients",
         "description"] :=
  C10_serializer_fields.2.1 ViewAction.retrieve (Or.inl rfl)
    { id := 1, user := 1, title := "Curry", time_minutes := 30, price := 5,
      link := "", description := "", image := none, tags := [1], ingredients := [1] }
